import Mathlib

/-!
# Verification of the goblin scene-graph core (`src/src/3d/object3d.js`)

Shallow embedding of the `Object3D` transform/hierarchy/event subsystem.

Modelling conventions:
* Node identity is a natural number (`NodeId`); the JS heap of `Object3D`
  instances is a total map `World : NodeId → Node`.  `initialWorld` maps every
  id to a freshly-constructed node (the JS constructor with default
  arguments).  The JS `_id` uuid string plays no role in any claim and is
  represented by the `NodeId` itself.
* The math library (`src/math/vec3.js`, `quat.js`, `mat4.js`) is not under
  `src/`; the spec (§6) treats it as an external collaborator.  It is
  modelled from the spec with exact-arithmetic scalars (`ℤ`): JS doubles are
  idealised as an exact commutative ring, which is the standard reading of
  the spec's "within floating-point tolerance", and every algebraic law used
  here holds verbatim over any such ring.  Angles enter only through
  `fromAxisRotation`; since `sin/cos`
  are transcendental, that constructor is parametrised by the two values
  `cos(θ/2)` and `sin(θ/2)` it consumes.
* `Listenable` (`src/util/listenable.js`) is not under `src/`; it is
  modelled from the spec (§4.4): a registration list of
  `(event name, callback id)` pairs in registration order.  Callbacks are
  opaque identifiers; `notify` produces the ordered list of callback
  invocations (the delivery trace) instead of running user code.
* Every operation returns the new world together with the trace of listener
  invocations it delivered.
-/

namespace Goblin

abbrev NodeId := Nat

/-- Modelled from the spec (§6): 3-component vector of the external math
library, over exact scalars. -/
structure Vec3 where
  x : ℤ
  y : ℤ
  z : ℤ
deriving DecidableEq, Repr

namespace Vec3

/-- `Vec3.NULL` : the zero vector (JS `Vec3.NULL`, constructor default origin). -/
def NULL : Vec3 := ⟨0, 0, 0⟩

/-- `Vec3.IDENTITY` : all-ones vector (constructor default scale). -/
def IDENTITY : Vec3 := ⟨1, 1, 1⟩

/-- Modelled from the spec (§6): componentwise vector addition (`Vec3#add`). -/
def add (a b : Vec3) : Vec3 := ⟨a.x + b.x, a.y + b.y, a.z + b.z⟩

/-- Modelled from the spec (§6): componentwise multiplication (`Vec3#multiply`),
exercised by the `Vec3Test.testMultiply` test in the repository. -/
def mulV (a b : Vec3) : Vec3 := ⟨a.x * b.x, a.y * b.y, a.z * b.z⟩

/-- Modelled from the spec: `Vec3#translateX` adds a delta to the x component
(usage in `Object3D#translateX`). -/
def translateX (a : Vec3) (d : ℤ) : Vec3 := ⟨a.x + d, a.y, a.z⟩

/-- Modelled from the spec: `Vec3#translateY` adds a delta to the y component. -/
def translateY (a : Vec3) (d : ℤ) : Vec3 := ⟨a.x, a.y + d, a.z⟩

/-- Modelled from the spec: `Vec3#translateZ` adds a delta to the z component. -/
def translateZ (a : Vec3) (d : ℤ) : Vec3 := ⟨a.x, a.y, a.z + d⟩

/-- `Vec3.X_AXIS`. -/
def X_AXIS : Vec3 := ⟨1, 0, 0⟩

/-- `Vec3.Y_AXIS`. -/
def Y_AXIS : Vec3 := ⟨0, 1, 0⟩

/-- `Vec3.Z_AXIS`. -/
def Z_AXIS : Vec3 := ⟨0, 0, 1⟩

end Vec3

/-- Modelled from the spec (§6): quaternion of the external math library. -/
structure Quat where
  x : ℤ
  y : ℤ
  z : ℤ
  w : ℤ
deriving DecidableEq, Repr

namespace Quat

/-- `Quat.IDENTITY` (constructor default orientation). -/
def IDENTITY : Quat := ⟨0, 0, 0, 1⟩

/-- Modelled from the spec (§6): Hamilton product (`Quat#multiply`), used by
the rotate operations as `orientation = orientation * deltaRotation`. -/
def mul (a b : Quat) : Quat :=
  ⟨a.w * b.x + a.x * b.w + a.y * b.z - a.z * b.y,
   a.w * b.y - a.x * b.z + a.y * b.w + a.z * b.x,
   a.w * b.z + a.x * b.y - a.y * b.x + a.z * b.w,
   a.w * b.w - a.x * b.x - a.y * b.y - a.z * b.z⟩

/-- Modelled from the spec (§4.1): `Quat#fromAxisRotation(θ, axis)` builds the
rotation quaternion `(axis.x·sin(θ/2), axis.y·sin(θ/2), axis.z·sin(θ/2), cos(θ/2))`.
Since `sin/cos` are transcendental, the two scalars `c = cos(θ/2)` and
`s = sin(θ/2)` are taken as parameters. -/
def fromAxisRotation (c s : ℤ) (axis : Vec3) : Quat :=
  ⟨axis.x * s, axis.y * s, axis.z * s, c⟩

end Quat

/-- Modelled from the spec (§6): 4×4 matrix of the external math library,
row-major (`mij` is row `i`, column `j`). -/
structure Mat4 where
  m00 : ℤ
  m01 : ℤ
  m02 : ℤ
  m03 : ℤ
  m10 : ℤ
  m11 : ℤ
  m12 : ℤ
  m13 : ℤ
  m20 : ℤ
  m21 : ℤ
  m22 : ℤ
  m23 : ℤ
  m30 : ℤ
  m31 : ℤ
  m32 : ℤ
  m33 : ℤ
deriving DecidableEq, Repr

namespace Mat4

/-- `Mat4.identity()`. -/
def identity : Mat4 :=
  ⟨1, 0, 0, 0,
   0, 1, 0, 0,
   0, 0, 1, 0,
   0, 0, 0, 1⟩

/-- Modelled from the spec (§6): matrix product `a · b` (`Mat4#multiply`). -/
def mulM (a b : Mat4) : Mat4 :=
  ⟨a.m00 * b.m00 + a.m01 * b.m10 + a.m02 * b.m20 + a.m03 * b.m30,
   a.m00 * b.m01 + a.m01 * b.m11 + a.m02 * b.m21 + a.m03 * b.m31,
   a.m00 * b.m02 + a.m01 * b.m12 + a.m02 * b.m22 + a.m03 * b.m32,
   a.m00 * b.m03 + a.m01 * b.m13 + a.m02 * b.m23 + a.m03 * b.m33,
   a.m10 * b.m00 + a.m11 * b.m10 + a.m12 * b.m20 + a.m13 * b.m30,
   a.m10 * b.m01 + a.m11 * b.m11 + a.m12 * b.m21 + a.m13 * b.m31,
   a.m10 * b.m02 + a.m11 * b.m12 + a.m12 * b.m22 + a.m13 * b.m32,
   a.m10 * b.m03 + a.m11 * b.m13 + a.m12 * b.m23 + a.m13 * b.m33,
   a.m20 * b.m00 + a.m21 * b.m10 + a.m22 * b.m20 + a.m23 * b.m30,
   a.m20 * b.m01 + a.m21 * b.m11 + a.m22 * b.m21 + a.m23 * b.m31,
   a.m20 * b.m02 + a.m21 * b.m12 + a.m22 * b.m22 + a.m23 * b.m32,
   a.m20 * b.m03 + a.m21 * b.m13 + a.m22 * b.m23 + a.m23 * b.m33,
   a.m30 * b.m00 + a.m31 * b.m10 + a.m32 * b.m20 + a.m33 * b.m30,
   a.m30 * b.m01 + a.m31 * b.m11 + a.m32 * b.m21 + a.m33 * b.m31,
   a.m30 * b.m02 + a.m31 * b.m12 + a.m32 * b.m22 + a.m33 * b.m32,
   a.m30 * b.m03 + a.m31 * b.m13 + a.m32 * b.m23 + a.m33 * b.m33⟩

/-- Modelled from the spec (§4.3): the translation matrix `Translate(v)`. -/
def translation (v : Vec3) : Mat4 :=
  ⟨1, 0, 0, v.x,
   0, 1, 0, v.y,
   0, 0, 1, v.z,
   0, 0, 0, 1⟩

/-- Modelled from the spec (§4.3): the scaling matrix `Scale(v)`. -/
def scaling (v : Vec3) : Mat4 :=
  ⟨v.x, 0, 0, 0,
   0, v.y, 0, 0,
   0, 0, v.z, 0,
   0, 0, 0, 1⟩

/-- Modelled from the spec (§4.3): the standard rotation matrix `Rotate(q)` of
a unit quaternion. -/
def rotation (q : Quat) : Mat4 :=
  ⟨1 - 2 * (q.y * q.y + q.z * q.z), 2 * (q.x * q.y - q.z * q.w), 2 * (q.x * q.z + q.y * q.w), 0,
   2 * (q.x * q.y + q.z * q.w), 1 - 2 * (q.x * q.x + q.z * q.z), 2 * (q.y * q.z - q.x * q.w), 0,
   2 * (q.x * q.z - q.y * q.w), 2 * (q.y * q.z + q.x * q.w), 1 - 2 * (q.x * q.x + q.y * q.y), 0,
   0, 0, 0, 1⟩

/-- Modelled from the spec (§6): the in-place `Mat4#translate(v)` composes the
current matrix with a translation on the right. -/
def translateBy (m : Mat4) (v : Vec3) : Mat4 := m.mulM (translation v)

/-- Modelled from the spec (§6): `Mat4#rotateQuat(q)` composes with the
quaternion rotation matrix on the right. -/
def rotateQuatBy (m : Mat4) (q : Quat) : Mat4 := m.mulM (rotation q)

/-- Modelled from the spec (§6): `Mat4#scaleVec(v)` composes with a scaling on
the right. -/
def scaleVecBy (m : Mat4) (v : Vec3) : Mat4 := m.mulM (scaling v)

end Mat4

/-- The call chain of `Object3D#_revalidateModel` (object3d.js:423-426):
`identity(); translate(origin); rotateQuat(orientation); scaleVec(scale)`. -/
def composeChain (o : Vec3) (q : Quat) (s : Vec3) : Mat4 :=
  ((Mat4.identity.translateBy o).rotateQuatBy q).scaleVecBy s

/-- The composition `Translate(origin) · Rotate(orientation) · Scale(scale)`
exactly as the spec words it (§4.3 step 1). -/
def specLocalModel (o : Vec3) (q : Quat) (s : Vec3) : Mat4 :=
  (Mat4.translation o).mulM ((Mat4.rotation q).mulM (Mat4.scaling s))

/-!
## Data model: nodes, the world, and the event trace
-/

/-- The per-instance state of an `Object3D` (object3d.js:44-59).  Field names
follow the JS underscore-prefixed properties.  `listeners` is the state of the
`Listenable` superclass, modelled from the spec (§4.4) as the registration
list of `(event name, callback id)` pairs in registration order. -/
structure Node where
  name : String
  parent : Option NodeId
  children : List NodeId
  origin : Vec3
  orientation : Quat
  scale : Vec3
  is_local_model_valid : Bool
  is_model_valid : Bool
  local_model : Mat4
  world_model : Mat4
  listeners : List (String × Nat)
deriving DecidableEq, Repr

/-- A freshly-constructed node: the JS constructor with default arguments
(object3d.js:44-59).  `_is_local_model_valid` is never assigned by the
constructor; the JS value `undefined` is falsy, i.e. `false`. -/
def freshNode : Node where
  name := ""
  parent := none
  children := []
  origin := Vec3.NULL
  orientation := Quat.IDENTITY
  scale := Vec3.IDENTITY
  is_local_model_valid := false
  is_model_valid := false
  local_model := Mat4.identity
  world_model := Mat4.identity
  listeners := []

/-- The heap of `Object3D` instances: a total map from node ids to node
states. -/
def World : Type := NodeId → Node

/-- Read a node. -/
def World.get (w : World) (id : NodeId) : Node := w id

/-- Overwrite a node. -/
def World.set (w : World) (id : NodeId) (n : Node) : World :=
  fun j => if j = id then n else w j

/-- Update a node in place. -/
def World.modify (w : World) (id : NodeId) (f : Node → Node) : World :=
  w.set id (f (w.get id))

/-- The world in which every id denotes a freshly-constructed node. -/
def initialWorld : World := fun _ => freshNode

/-- The payload delivered to a listener by `notify` (the `...args` of the JS
call). -/
inductive EvArg where
  | noArg : EvArg
  | vec (v : Vec3) : EvArg
  | quatA (q : Quat) : EvArg
  | mat (m : Mat4) : EvArg
  | pair (a b : NodeId) : EvArg
deriving DecidableEq, Repr

/-- One synchronous listener invocation: callback `cb`, registered on `node`
for `event`, receiving `arg`. -/
structure Inv where
  node : NodeId
  cb : Nat
  event : String
  arg : EvArg
deriving DecidableEq, Repr

/-- Modelled from the spec (§4.4): `notify(eventName, ...args)` invokes every
callback registered for `eventName`, synchronously, in registration order.
Callbacks are opaque, so the delivery is the returned trace; the world is
unchanged. -/
def notify (w : World) (id : NodeId) (ev : String) (arg : EvArg) : List Inv :=
  (w.get id).listeners.filterMap
    (fun l => if l.1 = ev then some ⟨id, l.2, ev, arg⟩ else none)

/-- Modelled from the spec (§4.4): `on(eventName, callback)` appends the
callback to the event's ordered registration sequence.  (`on` is a reserved
token in Lean, hence the name `onEvent`.) -/
def onEvent (w : World) (id : NodeId) (ev : String) (cb : Nat) : World :=
  w.modify id (fun n => { n with listeners := n.listeners ++ [(ev, cb)] })

/-- Modelled from the spec (§4.4): `clearListeners()` removes all registered
callbacks on the instance. -/
def clearListeners (n : Node) : Node := { n with listeners := [] }

/-!
## Operations of `Object3D` (translated from object3d.js)
-/

/-- `_invalidateModel` (object3d.js:400-402). -/
def invalidateModel (n : Node) : Node := { n with is_model_valid := false }

/-- `_invalidateLocalModel` (object3d.js:408-411): invalidates the local model
and, in the same operation, the world model. -/
def invalidateLocalModel (n : Node) : Node :=
  { n with is_local_model_valid := false, is_model_valid := false }

/-- The `parent` setter (object3d.js:102-105): assigns the parent reference
and invalidates the world model. -/
def setParent (w : World) (id : NodeId) (p : Option NodeId) : World :=
  w.modify id (fun n => invalidateModel { n with parent := p })

/-- Common shape of the transform mutators: mutate the node state, then
`_invalidateLocalModel()` (each mutator at object3d.js:130-376 follows this
pattern before its `notify`). -/
def mutateLocal (w : World) (id : NodeId) (g : Node → Node) : World :=
  w.modify id (fun n => invalidateLocalModel (g n))

/-- The `origin` setter (object3d.js:130-134): copy the new value, invalidate
the local model, notify `origin` with the (new) origin. -/
def setOrigin (w : World) (id : NodeId) (v : Vec3) : World × List Inv :=
  let w1 := mutateLocal w id (fun n => { n with origin := v })
  (w1, notify w1 id "origin" (.vec ((w1.get id).origin)))

/-- The `orientation` setter (object3d.js:150-154). -/
def setOrientation (w : World) (id : NodeId) (q : Quat) : World × List Inv :=
  let w1 := mutateLocal w id (fun n => { n with orientation := q })
  (w1, notify w1 id "orientation" (.quatA ((w1.get id).orientation)))

/-- The `size` setter (object3d.js:170-174): assigns the scale. -/
def setSize (w : World) (id : NodeId) (v : Vec3) : World × List Inv :=
  let w1 := mutateLocal w id (fun n => { n with scale := v })
  (w1, notify w1 id "size" (.vec ((w1.get id).scale)))

/-- `scale(v)` (object3d.js:276-280): componentwise multiply the scale. -/
def scaleMul (w : World) (id : NodeId) (v : Vec3) : World × List Inv :=
  let w1 := mutateLocal w id (fun n => { n with scale := n.scale.mulV v })
  (w1, notify w1 id "size" (.vec ((w1.get id).scale)))

/-- `translate(v)` (object3d.js:287-291): add `v` to the origin. -/
def translate (w : World) (id : NodeId) (v : Vec3) : World × List Inv :=
  let w1 := mutateLocal w id (fun n => { n with origin := n.origin.add v })
  (w1, notify w1 id "origin" (.vec ((w1.get id).origin)))

/-- `translateX(delta_x)` (object3d.js:298-302). -/
def translateX (w : World) (id : NodeId) (d : ℤ) : World × List Inv :=
  let w1 := mutateLocal w id (fun n => { n with origin := n.origin.translateX d })
  (w1, notify w1 id "origin" (.vec ((w1.get id).origin)))

/-- `translateY(delta_y)` (object3d.js:309-313). -/
def translateY (w : World) (id : NodeId) (d : ℤ) : World × List Inv :=
  let w1 := mutateLocal w id (fun n => { n with origin := n.origin.translateY d })
  (w1, notify w1 id "origin" (.vec ((w1.get id).origin)))

/-- `translateZ(delta_z)` (object3d.js:320-324). -/
def translateZ (w : World) (id : NodeId) (d : ℤ) : World × List Inv :=
  let w1 := mutateLocal w id (fun n => { n with origin := n.origin.translateZ d })
  (w1, notify w1 id "origin" (.vec ((w1.get id).origin)))

/-- `rotate(theta, axis)` (object3d.js:333-338): right-multiply the
orientation by `fromAxisRotation(theta, axis)`; `c, s` stand for
`cos(θ/2), sin(θ/2)`. -/
def rotate (w : World) (id : NodeId) (c s : ℤ) (axis : Vec3) : World × List Inv :=
  let w1 := mutateLocal w id
    (fun n => { n with orientation := n.orientation.mul (Quat.fromAxisRotation c s axis) })
  (w1, notify w1 id "orientation" (.quatA ((w1.get id).orientation)))

/-- `rotateX(theta)` (object3d.js:345-350). -/
def rotateX (w : World) (id : NodeId) (c s : ℤ) : World × List Inv :=
  rotate w id c s Vec3.X_AXIS

/-- `rotateY(theta)` (object3d.js:357-363). -/
def rotateY (w : World) (id : NodeId) (c s : ℤ) : World × List Inv :=
  rotate w id c s Vec3.Y_AXIS

/-- `rotateZ(theta)` (object3d.js:370-376). -/
def rotateZ (w : World) (id : NodeId) (c s : ℤ) : World × List Inv :=
  rotate w id c s Vec3.Z_AXIS

/-- The `name` setter (object3d.js:84-86). -/
def setName (w : World) (id : NodeId) (s : String) : World :=
  w.modify id (fun n => { n with name := s })

/-- `hasChild(object)` (object3d.js:221-223): JS `Set#has`. -/
def hasChild (w : World) (pid cid : NodeId) : Bool :=
  (w.get pid).children.contains cid

/-- `childCount` getter (object3d.js:112-114). -/
def childCount (w : World) (id : NodeId) : Nat :=
  (w.get id).children.length

/-- `addChild(object)` (object3d.js:199-212).  The third component is the
thrown error, if any; when it is `some`, the returned world is the input
world because the throw precedes every mutation.  A JS `Set` preserves
insertion order, so adding appends.  The already-a-child branch only logs a
warning (`wl`) and returns. -/
def addChild (w : World) (pid cid : NodeId) : World × List Inv × Option String :=
  if ((w.get cid).parent).isSome then
    (w, [], some "Unable to add the specified object to this node as it already has a parent.")
  else if hasChild w pid cid then
    (w, [], none)
  else
    let w1 := w.modify pid (fun n => { n with children := n.children ++ [cid] })
    let w2 := setParent w1 cid (some pid)
    (w2, notify w2 pid "add" (.pair pid cid), none)

/-- `removeChild(object)` (object3d.js:239-249).  The third component is the
JS return value.  The JS `!object` null-guard cannot fire here because every
`NodeId` denotes an object.  `Set#delete` removes the element; on the
(nodup) lists maintained by `addChild` this is `List.erase`. -/
def removeChild (w : World) (pid cid : NodeId) : World × List Inv × Bool :=
  if hasChild w pid cid then
    let w1 := w.modify pid (fun n => { n with children := n.children.erase cid })
    let w2 := setParent w1 cid none
    (w2, notify w2 pid "remove" (.pair pid cid), true)
  else
    (w, [], false)

/-- The loop of `clearChildren` (object3d.js:254-258): remove each child in
turn.  The JS `for...of` over the live `Set` visits exactly the elements of
the iteration-start snapshot, because each step deletes only the element
being visited. -/
def removeAll (w : World) (pid : NodeId) : List NodeId → World × List Inv
  | [] => (w, [])
  | c :: rest =>
    let r1 := removeChild w pid c
    let r2 := removeAll r1.1 pid rest
    (r2.1, r1.2.1 ++ r2.2)

/-- `clearChildren()` (object3d.js:254-258). -/
def clearChildren (w : World) (pid : NodeId) : World × List Inv :=
  removeAll w pid ((w.get pid).children)

/-- Invalidate the world model of every node in `cs`: the
`for(let child of this._children) child._invalidateModel();` loop of
`_revalidateModel` (object3d.js:433-434). -/
def invalidateChildren (w : World) : List NodeId → World
  | [] => w
  | c :: rest => invalidateChildren (w.modify c invalidateModel) rest

/-- `_revalidateModel()` (object3d.js:420-438): recompute the local model if
it is invalid, recompute the world model (`_computeWorldModel`,
object3d.js:443-450), mark the model valid, invalidate every direct child's
world model, then notify `localModel` (if the local model changed) and
`model`. -/
def revalidateModel (w : World) (id : NodeId) : World × List Inv :=
  let n := w.get id
  let localModelChanged := !n.is_local_model_valid
  let n1 := if localModelChanged then
      { n with local_model := composeChain n.origin n.orientation n.scale,
               is_local_model_valid := true }
    else n
  let wm := match n1.parent with
    | some p => ((w.get p).world_model).mulM n1.local_model
    | none => n1.local_model
  let n2 := { n1 with world_model := wm, is_model_valid := true }
  let w1 := w.set id n2
  let w2 := invalidateChildren w1 n2.children
  let t1 := if localModelChanged then notify w2 id "localModel" (.mat n2.local_model) else []
  (w2, t1 ++ notify w2 id "model" (.mat n2.world_model))

/-- `update(delta_t)` (object3d.js:263-269): revalidate if the model is
invalid, then recurse into the children.  `delta_t` is unused by the source.
The recursion along the JS call tree is bounded by explicit `fuel` (any
`fuel` exceeding the tree height computes the full traversal; `fuel = 0` is
never reached then).  The children iteration uses the live `_children` set,
which no step of the traversal mutates. -/
def update : Nat → World → NodeId → World × List Inv
  | 0, w, _ => (w, [])
  | fuel + 1, w, id =>
    let p := if (w.get id).is_model_valid then (w, ([] : List Inv)) else revalidateModel w id
    List.foldl (fun acc c => let q := update fuel acc.1 c; (q.1, acc.2 ++ q.2))
      p ((p.1.get id).children)
termination_by structural fuel _ _ => fuel

/-- The `for(let child of this._children) child.update(delta_t);` loop of
`update` (object3d.js:267-268), in explicit recursive form. -/
def updateChildren (fuel : Nat) : World → List NodeId → World × List Inv
  | w, [] => (w, [])
  | w, c :: rest =>
    let q := update fuel w c
    let r := updateChildren fuel q.1 rest
    (r.1, q.2 ++ r.2)

/-- `destroy()` (object3d.js:381-394): detach from the parent if any, clear
the listeners, then for every child remove it and recursively destroy it,
finally notify `destroy`.  Recursion depth is bounded by explicit `fuel`.
The JS `for...of` over the live `_children` set visits exactly the
iteration-start snapshot: each step deletes only the element being visited,
and the recursive destroys do not touch this node's child set. -/
def destroy : Nat → World → NodeId → World × List Inv
  | 0, w, _ => (w, [])
  | fuel + 1, w, id =>
    let p := match (w.get id).parent with
      | some pid => (let r := removeChild w pid id; (r.1, r.2.1))
      | none => (w, ([] : List Inv))
    let w2 := p.1.modify id clearListeners
    let r := List.foldl
      (fun acc c =>
        let r1 := removeChild acc.1 id c
        let r2 := destroy fuel r1.1 c
        (r2.1, acc.2 ++ r1.2.1 ++ r2.2))
      (w2, p.2) ((w2.get id).children)
    (r.1, r.2 ++ notify r.1 id "destroy" .noArg)
termination_by structural fuel _ _ => fuel

/-- The `for(let child of this._children) { this.removeChild(child);
child.destroy(); }` loop of `destroy` (object3d.js:388-391), in explicit
recursive form. -/
def destroyChildren (fuel : Nat) (pid : NodeId) : World → List NodeId → World × List Inv
  | w, [] => (w, [])
  | w, c :: rest =>
    let r1 := removeChild w pid c
    let r2 := destroy fuel r1.1 c
    let r3 := destroyChildren fuel pid r2.1 rest
    (r3.1, r1.2.1 ++ r2.2 ++ r3.2)

/-!
## The public operation alphabet

One constructor per public mutating entry point of `Object3D` (the `parent`
setter is invoked only through `addChild`/`removeChild`, which is how the
spec's hierarchy manager drives it).  Recursive entry points carry their
fuel.
-/

/-- A public operation applied to the world. -/
inductive Op where
  | setName (id : NodeId) (s : String)
  | setOrigin (id : NodeId) (v : Vec3)
  | setOrientation (id : NodeId) (q : Quat)
  | setSize (id : NodeId) (v : Vec3)
  | translate (id : NodeId) (v : Vec3)
  | translateX (id : NodeId) (d : ℤ)
  | translateY (id : NodeId) (d : ℤ)
  | translateZ (id : NodeId) (d : ℤ)
  | scaleMul (id : NodeId) (v : Vec3)
  | rotate (id : NodeId) (c s : ℤ) (axis : Vec3)
  | rotateX (id : NodeId) (c s : ℤ)
  | rotateY (id : NodeId) (c s : ℤ)
  | rotateZ (id : NodeId) (c s : ℤ)
  | addChild (pid cid : NodeId)
  | removeChild (pid cid : NodeId)
  | clearChildren (id : NodeId)
  | destroy (fuel : Nat) (id : NodeId)
  | update (fuel : Nat) (id : NodeId)
  | onEvent (id : NodeId) (ev : String) (cb : Nat)
deriving DecidableEq, Repr

/-- Execute one operation (keeping only the world; traces are produced by the
individual operations). -/
def applyOp (w : World) : Op → World
  | .setName id s => setName w id s
  | .setOrigin id v => (setOrigin w id v).1
  | .setOrientation id q => (setOrientation w id q).1
  | .setSize id v => (setSize w id v).1
  | .translate id v => (translate w id v).1
  | .translateX id d => (translateX w id d).1
  | .translateY id d => (translateY w id d).1
  | .translateZ id d => (translateZ w id d).1
  | .scaleMul id v => (scaleMul w id v).1
  | .rotate id c s axis => (rotate w id c s axis).1
  | .rotateX id c s => (rotateX w id c s).1
  | .rotateY id c s => (rotateY w id c s).1
  | .rotateZ id c s => (rotateZ w id c s).1
  | .addChild pid cid => (addChild w pid cid).1
  | .removeChild pid cid => (removeChild w pid cid).1
  | .clearChildren id => (clearChildren w id).1
  | .destroy fuel id => (destroy fuel w id).1
  | .update fuel id => (update fuel w id).1
  | .onEvent id ev cb => onEvent w id ev cb

/-- Execute a sequence of operations, left to right. -/
def applyOps (w : World) : List Op → World
  | [] => w
  | op :: rest => applyOps (applyOp w op) rest

/-- The transform property mutations of spec §4.1: setters, translate, scale
and rotate variants. -/
def Op.isPropMutation : Op → Bool
  | .setOrigin _ _ | .setOrientation _ _ | .setSize _ _
  | .translate _ _ | .translateX _ _ | .translateY _ _ | .translateZ _ _
  | .scaleMul _ _
  | .rotate _ _ _ _ | .rotateX _ _ _ | .rotateY _ _ _ | .rotateZ _ _ _ => true
  | _ => false

/-- The node an operation addresses (the JS `this`). -/
def Op.target : Op → NodeId
  | .setName id _ => id
  | .setOrigin id _ => id
  | .setOrientation id _ => id
  | .setSize id _ => id
  | .translate id _ => id
  | .translateX id _ => id
  | .translateY id _ => id
  | .translateZ id _ => id
  | .scaleMul id _ => id
  | .rotate id _ _ _ => id
  | .rotateX id _ _ => id
  | .rotateY id _ _ => id
  | .rotateZ id _ _ => id
  | .addChild pid _ => pid
  | .removeChild pid _ => pid
  | .clearChildren id => id
  | .destroy _ id => id
  | .update _ id => id
  | .onEvent id _ _ => id

/-- The node value written by `_revalidateModel` for the node itself. -/
def revalNode (w : World) (id : NodeId) : Node :=
  let n := w.get id
  let n1 := if !n.is_local_model_valid then
      { n with local_model := composeChain n.origin n.orientation n.scale,
               is_local_model_valid := true }
    else n
  let wm := match n1.parent with
    | some p => ((w.get p).world_model).mulM n1.local_model
    | none => n1.local_model
  { n1 with world_model := wm, is_model_valid := true }

/-!
## Flag discipline (claim C4)

`FlagOK` states that the state `(localModelValid = false, modelValid = true)`
does not occur at any node: whenever the world model is marked valid, so is
the local model.
-/

/-- No node is in the `(invalid local, valid world)` flag state. -/
def FlagOK (w : World) : Prop :=
  ∀ n, (w.get n).is_model_valid = true → (w.get n).is_local_model_valid = true

/-!
## Structural invariants: bidirectional consistency and duplicate-free child
sets (claims C6 and C8)
-/

/-- Bidirectional consistency: a node appears in another node's child set iff
its parent reference points to that other node. -/
def BiDir (w : World) : Prop :=
  ∀ p c : NodeId, c ∈ (w.get p).children ↔ (w.get c).parent = some p

/-- Child sets contain no duplicates (they model JS `Set`s). -/
def NodupKids (w : World) : Prop :=
  ∀ p : NodeId, (w.get p).children.Nodup

def StructInv (w : World) : Prop := BiDir w ∧ NodupKids w

/-- Worlds with identical child sets and parent references at every node. -/
def shapeEq (w w' : World) : Prop :=
  ∀ n, (w'.get n).children = (w.get n).children ∧ (w'.get n).parent = (w.get n).parent

/-!
## Claim C8: `destroy()` on a subtree of depth 2

The scenario world: node 10 is an outer parent, node 0 the destroyed subtree
root, nodes 1 and 2 its children, node 3 a grandchild under 1; several
listeners are registered on the subtree nodes.  `destroy` is called on node
0 with ample fuel (the subtree has height 2).
-/

/-- Construction of the C8 scenario: listeners, a depth-2 subtree under an
outer parent, then `destroy()` on the subtree root. -/
def destroyScenarioOps : List Op :=
  [.onEvent 0 "destroy" 1, .onEvent 1 "origin" 2, .onEvent 2 "model" 3,
   .onEvent 3 "destroy" 4, .onEvent 10 "remove" 9,
   .addChild 10 0, .addChild 0 1, .addChild 0 2, .addChild 1 3,
   .destroy 4 0]

/-!
## Tree shape, spec-side invariants, and transport lemmas for `update`
(claims C1, C2, C3)
-/

/-- The ids of the subtree rooted at `id`, unfolded to depth `h` along the
`children` lists. -/
def subtreeIds : Nat → World → NodeId → List NodeId
  | 0, _, id => [id]
  | h + 1, w, id => id :: ((w.get id).children.map (subtreeIds h w)).flatten

/-- Tree well-formedness to depth `h`: every child's parent reference points
back at its tree parent, recursively; nodes at depth `h` are leaves. -/
def parentsOKb : Nat → World → NodeId → Bool
  | 0, w, id => (w.get id).children.isEmpty
  | h + 1, w, id => (w.get id).children.all
      (fun c => ((w.get c).parent == some id) && parentsOKb h w c)

/-- The spec's composed local model of a node's current transform state. -/
def specLocalOf (nd : Node) : Mat4 := specLocalModel nd.origin nd.orientation nd.scale

/-- The world model the spec prescribes for a node given the current world:
`parent.worldModel · localModel` when a parent exists, else `localModel`. -/
def expectedWorld (w : World) (id : NodeId) : Mat4 :=
  match (w.get id).parent with
  | some p => ((w.get p).world_model).mulM (w.get id).local_model
  | none => (w.get id).local_model

/-- The spec invariant `worldModel = parent.worldModel · localModel` (or
`localModel` at a root) at one node. -/
abbrev worldEqAt (w : World) (id : NodeId) : Prop :=
  (w.get id).world_model = expectedWorld w id

/-- The conditional cache invariants of spec §3 at one node: each validity
flag, when set, vouches for its matrix. -/
abbrev nodeOK (w : World) (id : NodeId) : Prop :=
  ((w.get id).is_local_model_valid = true →
    (w.get id).local_model = specLocalOf (w.get id)) ∧
  ((w.get id).is_model_valid = true → (w.get id).is_local_model_valid = true) ∧
  ((w.get id).is_model_valid = true → worldEqAt w id)

/-- Both caches valid and truthful at one node. -/
abbrev validAt (w : World) (id : NodeId) : Prop :=
  (w.get id).is_model_valid = true ∧ (w.get id).is_local_model_valid = true ∧
  (w.get id).local_model = specLocalOf (w.get id) ∧ worldEqAt w id

/-- Equality of all fields `update` never writes. -/
def staticEq (a b : Node) : Prop :=
  a.parent = b.parent ∧ a.children = b.children ∧ a.origin = b.origin ∧
  a.orientation = b.orientation ∧ a.scale = b.scale ∧ a.listeners = b.listeners

/-- The traversal rewrites only matrices and flags. -/
def keepsStatic (w w' : World) : Prop := ∀ n, staticEq (w.get n) (w'.get n)

/-- Outcome of a sound traversal over the id set `S`: nothing outside `S`
changes, no static field changes anywhere, and every node of `S` ends fully
revalidated and truthful. -/
def UpdOut (S : List NodeId) (w w' : World) : Prop :=
  (∀ n, n ∉ S → w'.get n = w.get n) ∧ keepsStatic w w' ∧ (∀ n ∈ S, validAt w' n)

/-- The implementation's chain equals the spec's composition (matrix product
associativity and left identity). -/
theorem composeChain_eq_specLocalModel (o : Vec3) (q : Quat) (s : Vec3) :
    composeChain o q s = specLocalModel o q s := by
  cases o with
  | mk ox oy oz =>
    cases q with
    | mk qx qy qz qw =>
      cases s with
      | mk sx sy sz =>
        simp only [composeChain, specLocalModel, Mat4.translateBy, Mat4.rotateQuatBy,
          Mat4.scaleVecBy, Mat4.identity, Mat4.mulM, Mat4.translation, Mat4.rotation,
          Mat4.scaling, Mat4.mk.injEq]
        refine ⟨?_, ?_, ?_, ?_, ?_, ?_, ?_, ?_, ?_, ?_, ?_, ?_, ?_, ?_, ?_, ?_⟩ <;> ring

@[simp]
theorem World.get_set_same (w : World) (id : NodeId) (n : Node) :
    (w.set id n).get id = n := by
  simp [World.get, World.set]

theorem World.get_set_other (w : World) (id j : NodeId) (n : Node) (h : j ≠ id) :
    (w.set id n).get j = w.get j := by
  simp [World.get, World.set, h]

theorem World.get_set (w : World) (id j : NodeId) (n : Node) :
    (w.set id n).get j = if j = id then n else w.get j := by
  simp [World.get, World.set]

theorem World.get_modify (w : World) (id j : NodeId) (f : Node → Node) :
    (w.modify id f).get j = if j = id then f (w.get j) else w.get j := by
  by_cases h : j = id <;> simp [World.modify, World.get_set, h]

@[simp]
theorem World.get_modify_same (w : World) (id : NodeId) (f : Node → Node) :
    (w.modify id f).get id = f (w.get id) := by
  simp [World.get_modify]

theorem World.get_modify_other (w : World) (id j : NodeId) (f : Node → Node) (h : j ≠ id) :
    (w.modify id f).get j = w.get j := by
  simp [World.get_modify, h]

/-- Per-node effect of a successful `addChild`: the child id is appended to
the parent's child set, then the child's parent reference is set (which also
invalidates the child's world model). -/
theorem addChild_succeeds_get (w : World) (pid cid : NodeId)
    (h1 : (w.get cid).parent = none) (h2 : cid ∉ (w.get pid).children) (j : NodeId) :
    ((addChild w pid cid).1.get j) =
      (if j = cid then
        invalidateModel
          { (if cid = pid then { w.get cid with children := (w.get cid).children ++ [cid] }
             else w.get cid) with parent := some pid }
       else if j = pid then { w.get pid with children := (w.get pid).children ++ [cid] }
       else w.get j) := by
  have hnc : hasChild w pid cid = false := by
    simp [hasChild, List.elem_iff]
    exact h2
  simp only [addChild, h1, Option.isSome_none, Bool.false_eq_true, if_false, hnc, setParent]
  by_cases hj : j = cid
  · subst hj
    by_cases hp : j = pid <;> simp [World.get_modify, hp, invalidateModel]
  · simp only [World.get_modify, hj, if_false]
    by_cases hp : j = pid <;> simp [hp]

/-- Per-node effect of a successful `removeChild`: the child id is erased
from the parent's child set, then the child's parent reference is cleared
(which also invalidates the child's world model). -/
theorem removeChild_succeeds_get (w : World) (pid cid : NodeId)
    (hmem : cid ∈ (w.get pid).children) (j : NodeId) :
    ((removeChild w pid cid).1.get j) =
      (if j = cid then
        invalidateModel
          { (if cid = pid then { w.get cid with children := (w.get cid).children.erase cid }
             else w.get cid) with parent := none }
       else if j = pid then { w.get pid with children := (w.get pid).children.erase cid }
       else w.get j) := by
  have hc : hasChild w pid cid = true := by
    simp [hasChild, List.elem_iff]
    exact hmem
  simp only [removeChild, hc, if_pos, setParent]
  by_cases hj : j = cid
  · subst hj
    by_cases hp : j = pid <;> simp [World.get_modify, hp, invalidateModel]
  · simp only [World.get_modify, hj, if_false]
    by_cases hp : j = pid <;> simp [hp]

/-- `removeChild` on a non-child is a no-op returning `false`. -/
theorem removeChild_noop (w : World) (pid cid : NodeId)
    (h : cid ∉ (w.get pid).children) :
    removeChild w pid cid = (w, [], false) := by
  have hc : hasChild w pid cid = false := by
    simp [hasChild, List.elem_iff]
    exact h
  simp [removeChild, hc]

theorem update_foldl_eq_updateChildren (fuel : Nat) (cs : List NodeId)
    (p : World × List Inv) :
    List.foldl (fun acc c => let q := update fuel acc.1 c; (q.1, acc.2 ++ q.2)) p cs =
      (let r := updateChildren fuel p.1 cs; (r.1, p.2 ++ r.2)) := by
  induction cs generalizing p with
  | nil => simp [updateChildren]
  | cons c rest ih =>
    simp only [List.foldl_cons, updateChildren, ih]
    simp

/-- `update` at positive fuel, phrased with the explicit child loop. -/
theorem update_succ (fuel : Nat) (w : World) (id : NodeId) :
    update (fuel + 1) w id =
      (let p := if (w.get id).is_model_valid then (w, ([] : List Inv))
                else revalidateModel w id
       let r := updateChildren fuel p.1 ((p.1.get id).children)
       (r.1, p.2 ++ r.2)) := by
  rw [update, update_foldl_eq_updateChildren]

theorem destroy_foldl_eq_destroyChildren (fuel : Nat) (pid : NodeId) (cs : List NodeId)
    (p : World × List Inv) :
    List.foldl
      (fun acc c =>
        let r1 := removeChild acc.1 pid c
        let r2 := destroy fuel r1.1 c
        (r2.1, acc.2 ++ r1.2.1 ++ r2.2)) p cs =
      (let r := destroyChildren fuel pid p.1 cs; (r.1, p.2 ++ r.2)) := by
  induction cs generalizing p with
  | nil => simp [destroyChildren]
  | cons c rest ih =>
    simp only [List.foldl_cons, destroyChildren, ih]
    simp

/-- `destroy` at positive fuel, phrased with the explicit child loop. -/
theorem destroy_succ (fuel : Nat) (w : World) (id : NodeId) :
    destroy (fuel + 1) w id =
      (let p := match (w.get id).parent with
        | some pid => (let r := removeChild w pid id; (r.1, r.2.1))
        | none => (w, ([] : List Inv))
       let w2 := p.1.modify id clearListeners
       let r := destroyChildren fuel id w2 ((w2.get id).children)
       (r.1, p.2 ++ r.2 ++ notify r.1 id "destroy" .noArg)) := by
  rw [destroy, destroy_foldl_eq_destroyChildren]

/-!
## Per-field characterizations of the structural operations
-/

/-- Helper: the error branch of `addChild` (object3d.js:200-201). -/
theorem addChild_parented_eq (w : World) (pid cid q : NodeId)
    (h : (w.get cid).parent = some q) :
    addChild w pid cid =
      (w, [], some "Unable to add the specified object to this node as it already has a parent.") := by
  simp [addChild, h]

theorem addChild_children (w : World) (pid cid : NodeId)
    (h1 : (w.get cid).parent = none) (h2 : cid ∉ (w.get pid).children) (j : NodeId) :
    ((addChild w pid cid).1.get j).children =
      if j = pid then (w.get pid).children ++ [cid] else (w.get j).children := by
  rw [addChild_succeeds_get w pid cid h1 h2 j]
  by_cases hj : j = cid
  · subst hj
    by_cases hp : j = pid <;> simp [hp, invalidateModel]
  · by_cases hp : j = pid
    · subst hp
      simp [hj]
    · simp [hp, hj]

theorem addChild_parent (w : World) (pid cid : NodeId)
    (h1 : (w.get cid).parent = none) (h2 : cid ∉ (w.get pid).children) (j : NodeId) :
    ((addChild w pid cid).1.get j).parent =
      if j = cid then some pid else (w.get j).parent := by
  rw [addChild_succeeds_get w pid cid h1 h2 j]
  by_cases hj : j = cid
  · simp [hj, invalidateModel]
  · by_cases hp : j = pid
    · subst hp
      simp [hj]
    · simp [hp, hj]

theorem removeChild_children (w : World) (pid cid : NodeId)
    (hmem : cid ∈ (w.get pid).children) (j : NodeId) :
    ((removeChild w pid cid).1.get j).children =
      if j = pid then (w.get pid).children.erase cid else (w.get j).children := by
  rw [removeChild_succeeds_get w pid cid hmem j]
  by_cases hj : j = cid
  · subst hj
    by_cases hp : j = pid <;> simp [hp, invalidateModel]
  · by_cases hp : j = pid
    · subst hp
      simp [hj]
    · simp [hp, hj]

theorem removeChild_parent (w : World) (pid cid : NodeId)
    (hmem : cid ∈ (w.get pid).children) (j : NodeId) :
    ((removeChild w pid cid).1.get j).parent =
      if j = cid then none else (w.get j).parent := by
  rw [removeChild_succeeds_get w pid cid hmem j]
  by_cases hj : j = cid
  · simp [hj, invalidateModel]
  · by_cases hp : j = pid
    · subst hp
      simp [hj]
    · simp [hp, hj]

theorem removeChild_listeners (w : World) (pid cid : NodeId) (j : NodeId) :
    ((removeChild w pid cid).1.get j).listeners = (w.get j).listeners := by
  by_cases hmem : cid ∈ (w.get pid).children
  · rw [removeChild_succeeds_get w pid cid hmem j]
    by_cases hj : j = cid
    · subst hj
      by_cases hp : j = pid <;> simp [hp, invalidateModel]
    · by_cases hp : j = pid
      · subst hp
        simp [hj]
      · simp [hp, hj]
  · rw [removeChild_noop w pid cid hmem]

theorem removeChild_flags (w : World) (pid cid : NodeId) (j : NodeId) :
    ((removeChild w pid cid).1.get j).is_local_model_valid =
        (w.get j).is_local_model_valid ∧
      (((removeChild w pid cid).1.get j).is_model_valid = (w.get j).is_model_valid ∨
        ((removeChild w pid cid).1.get j).is_model_valid = false) := by
  by_cases hmem : cid ∈ (w.get pid).children
  · rw [removeChild_succeeds_get w pid cid hmem j]
    by_cases hj : j = cid
    · subst hj
      by_cases hp : j = pid <;> simp [hp, invalidateModel]
    · by_cases hp : j = pid
      · subst hp
        simp [hj]
      · simp [hp, hj]
  · rw [removeChild_noop w pid cid hmem]
    simp

@[simp]
theorem invalidateModel_idem (nd : Node) :
    invalidateModel (invalidateModel nd) = invalidateModel nd := rfl

/-- `invalidateChildren` clears exactly the world-model flags of the listed
nodes. -/
theorem invalidateChildren_get (cs : List NodeId) (w : World) (n : NodeId) :
    (invalidateChildren w cs).get n =
      if n ∈ cs then invalidateModel (w.get n) else w.get n := by
  induction cs generalizing w with
  | nil => simp [invalidateChildren]
  | cons c rest ih =>
    rw [invalidateChildren, ih]
    by_cases hr : n ∈ rest
    · by_cases hc : n = c <;>
        simp [hr, hc, World.get_modify, invalidateModel]
    · by_cases hc : n = c <;> simp [hr, hc, World.get_modify]

theorem revalidateModel_fst (w : World) (id : NodeId) :
    (revalidateModel w id).1 =
      invalidateChildren (w.set id (revalNode w id)) ((revalNode w id).children) := rfl

theorem revalNode_statics (w : World) (id : NodeId) :
    (revalNode w id).parent = (w.get id).parent ∧
      (revalNode w id).children = (w.get id).children ∧
      (revalNode w id).origin = (w.get id).origin ∧
      (revalNode w id).orientation = (w.get id).orientation ∧
      (revalNode w id).scale = (w.get id).scale ∧
      (revalNode w id).listeners = (w.get id).listeners ∧
      (revalNode w id).name = (w.get id).name := by
  unfold revalNode
  by_cases h : (w.get id).is_local_model_valid <;> simp [h]

theorem revalNode_flags (w : World) (id : NodeId) :
    (revalNode w id).is_model_valid = true ∧
      (revalNode w id).is_local_model_valid = true := by
  unfold revalNode
  by_cases h : (w.get id).is_local_model_valid <;> simp [h]

/-- Per-node effect of `_revalidateModel` on every node other than the target:
only the world-model flags of the direct children change. -/
theorem revalidateModel_get_other (w : World) (id n : NodeId) (hn : n ≠ id) :
    (revalidateModel w id).1.get n =
      if n ∈ (w.get id).children then invalidateModel (w.get n) else w.get n := by
  rw [revalidateModel_fst, invalidateChildren_get, (revalNode_statics w id).2.1,
    World.get_set_other _ _ _ _ hn]

/-- Per-node effect of `_revalidateModel` on the target node itself. -/
theorem revalidateModel_get_self (w : World) (id : NodeId)
    (hid : id ∉ (w.get id).children) :
    (revalidateModel w id).1.get id = revalNode w id := by
  rw [revalidateModel_fst, invalidateChildren_get, (revalNode_statics w id).2.1]
  simp [hid]

theorem FlagOK_modify_keep (w : World) (id : NodeId) (g : Node → Node)
    (hg : ∀ nd, (g nd).is_model_valid = nd.is_model_valid ∧
      (g nd).is_local_model_valid = nd.is_local_model_valid)
    (h : FlagOK w) : FlagOK (w.modify id g) := by
  intro n
  rw [World.get_modify]
  by_cases hn : n = id
  · simp only [hn, if_pos]
    intro hm
    rw [(hg (w.get id)).2]
    exact h id (((hg (w.get id)).1) ▸ hm)
  · simp only [hn, if_false]
    exact h n

theorem FlagOK_setParent (w : World) (id : NodeId) (p : Option NodeId)
    (h : FlagOK w) : FlagOK (setParent w id p) := by
  intro n
  rw [setParent, World.get_modify]
  by_cases hn : n = id
  · simp [hn, invalidateModel]
  · simp only [hn, if_false]
    exact h n

theorem FlagOK_mutateLocal (w : World) (id : NodeId) (g : Node → Node)
    (h : FlagOK w) : FlagOK (mutateLocal w id g) := by
  intro n
  rw [mutateLocal, World.get_modify]
  by_cases hn : n = id
  · simp [hn, invalidateLocalModel]
  · simp only [hn, if_false]
    exact h n

theorem FlagOK_addChild (w : World) (pid cid : NodeId)
    (h : FlagOK w) : FlagOK (addChild w pid cid).1 := by
  rw [addChild]
  by_cases h1 : ((w.get cid).parent).isSome
  · simpa [h1] using h
  · by_cases h2 : hasChild w pid cid
    · simpa [h1, h2] using h
    · simp only [h1, Bool.false_eq_true, if_false, h2]
      exact FlagOK_setParent _ cid (some pid)
        (FlagOK_modify_keep w pid _ (fun nd => ⟨rfl, rfl⟩) h)

theorem FlagOK_removeChild (w : World) (pid cid : NodeId)
    (h : FlagOK w) : FlagOK (removeChild w pid cid).1 := by
  rw [removeChild]
  by_cases hc : hasChild w pid cid
  · simp only [hc, if_pos]
    exact FlagOK_setParent _ cid none
      (FlagOK_modify_keep w pid _ (fun nd => ⟨rfl, rfl⟩) h)
  · simpa [hc] using h

theorem FlagOK_removeAll (cs : List NodeId) (w : World) (pid : NodeId)
    (h : FlagOK w) : FlagOK (removeAll w pid cs).1 := by
  induction cs generalizing w with
  | nil => simpa [removeAll]
  | cons c rest ih =>
    rw [removeAll]
    exact ih _ (FlagOK_removeChild w pid c h)

theorem FlagOK_clearChildren (w : World) (pid : NodeId)
    (h : FlagOK w) : FlagOK (clearChildren w pid).1 :=
  FlagOK_removeAll _ w pid h

theorem FlagOK_revalidateModel (w : World) (id : NodeId)
    (h : FlagOK w) : FlagOK (revalidateModel w id).1 := by
  intro n
  rw [revalidateModel_fst, invalidateChildren_get]
  by_cases hmem : n ∈ (revalNode w id).children
  · simp [hmem, invalidateModel]
  · simp only [hmem, if_false]
    rw [World.get_set]
    by_cases hn : n = id
    · simp only [hn, if_pos]
      intro _
      exact (revalNode_flags w id).2
    · simp only [hn, if_false]
      exact h n

theorem FlagOK_update (fuel : Nat) (w : World) (id : NodeId)
    (h : FlagOK w) : FlagOK (update fuel w id).1 := by
  induction fuel generalizing w id with
  | zero => simpa [update]
  | succ f ih =>
    rw [update_succ]
    have hrev : FlagOK (if (w.get id).is_model_valid = true then (w, ([] : List Inv))
        else revalidateModel w id).1 := by
      by_cases hv : (w.get id).is_model_valid = true
      · simpa [hv]
      · simpa [hv] using FlagOK_revalidateModel w id h
    have haux : ∀ cs w', FlagOK w' → FlagOK (updateChildren f w' cs).1 := by
      intro cs
      induction cs with
      | nil => intro w' hw'; simpa [updateChildren]
      | cons c rest ihc =>
        intro w' hw'
        rw [updateChildren]
        exact ihc _ (ih w' c hw')
    exact haux _ _ hrev

theorem FlagOK_destroy (fuel : Nat) (w : World) (id : NodeId)
    (h : FlagOK w) : FlagOK (destroy fuel w id).1 := by
  induction fuel generalizing w id with
  | zero => simpa [destroy]
  | succ f ih =>
    rw [destroy_succ]
    have hdet : FlagOK (match (w.get id).parent with
        | some pid => (let r := removeChild w pid id; (r.1, r.2.1))
        | none => (w, ([] : List Inv))).1 := by
      cases hp : (w.get id).parent with
      | none => simpa
      | some pid => exact FlagOK_removeChild w pid id h
    have hclr : ∀ w', FlagOK w' → FlagOK (w'.modify id clearListeners) := by
      intro w' hw'
      exact FlagOK_modify_keep w' id _ (fun nd => ⟨rfl, rfl⟩) hw'
    have haux : ∀ cs w', FlagOK w' → FlagOK (destroyChildren f id w' cs).1 := by
      intro cs
      induction cs with
      | nil => intro w' hw'; simpa [destroyChildren]
      | cons c rest ihc =>
        intro w' hw'
        rw [destroyChildren]
        exact ihc _ (ih _ c (FlagOK_removeChild w' id c hw'))
    exact haux _ _ (hclr _ hdet)

theorem FlagOK_applyOp (w : World) (op : Op) (h : FlagOK w) :
    FlagOK (applyOp w op) := by
  cases op with
  | setName id s =>
    exact FlagOK_modify_keep w id _ (fun nd => ⟨rfl, rfl⟩) h
  | setOrigin id v => exact FlagOK_mutateLocal w id _ h
  | setOrientation id q => exact FlagOK_mutateLocal w id _ h
  | setSize id v => exact FlagOK_mutateLocal w id _ h
  | translate id v => exact FlagOK_mutateLocal w id _ h
  | translateX id d => exact FlagOK_mutateLocal w id _ h
  | translateY id d => exact FlagOK_mutateLocal w id _ h
  | translateZ id d => exact FlagOK_mutateLocal w id _ h
  | scaleMul id v => exact FlagOK_mutateLocal w id _ h
  | rotate id c s axis => exact FlagOK_mutateLocal w id _ h
  | rotateX id c s => exact FlagOK_mutateLocal w id _ h
  | rotateY id c s => exact FlagOK_mutateLocal w id _ h
  | rotateZ id c s => exact FlagOK_mutateLocal w id _ h
  | addChild pid cid => exact FlagOK_addChild w pid cid h
  | removeChild pid cid => exact FlagOK_removeChild w pid cid h
  | clearChildren id => exact FlagOK_clearChildren w id h
  | destroy fuel id => exact FlagOK_destroy fuel w id h
  | update fuel id => exact FlagOK_update fuel w id h
  | onEvent id ev cb =>
    exact FlagOK_modify_keep w id _ (fun nd => ⟨rfl, rfl⟩) h

theorem FlagOK_applyOps (ops : List Op) (w : World) (h : FlagOK w) :
    FlagOK (applyOps w ops) := by
  induction ops generalizing w with
  | nil => simpa [applyOps]
  | cons op rest ih =>
    rw [applyOps]
    exact ih _ (FlagOK_applyOp w op h)

/-!
## Claim C4: the `(invalid, valid)` flag state is unreachable
-/

/-- C4: In every world reachable from freshly-constructed nodes by any
sequence of public operations, no node is ever in the flag state
`localModelValid = false, modelValid = true`: invalidating the local model
always also invalidates the world model in the same operation, and the world
model is only marked valid by `_revalidateModel`, which first ensures the
local model is valid. -/
theorem flag_state_invalid_valid_unreachable (ops : List Op) (n : NodeId) :
    ¬(((applyOps initialWorld ops).get n).is_local_model_valid = false ∧
      ((applyOps initialWorld ops).get n).is_model_valid = true) := by
  rintro ⟨hl, hm⟩
  have h0 : FlagOK initialWorld := by
    intro k
    simp [initialWorld, World.get, freshNode]
  have := FlagOK_applyOps ops initialWorld h0 n hm
  rw [hl] at this
  exact Bool.false_ne_true this

theorem shapeEq_refl (w : World) : shapeEq w w := fun _ => ⟨rfl, rfl⟩

theorem shapeEq_trans {w1 w2 w3 : World} (h12 : shapeEq w1 w2) (h23 : shapeEq w2 w3) :
    shapeEq w1 w3 := by
  intro n
  exact ⟨(h23 n).1.trans (h12 n).1, (h23 n).2.trans (h12 n).2⟩

theorem StructInv_of_shapeEq {w w' : World} (hs : shapeEq w w') (h : StructInv w) :
    StructInv w' := by
  refine ⟨fun p c => ?_, fun p => ?_⟩
  · rw [(hs p).1, (hs c).2]
    exact h.1 p c
  · rw [(hs p).1]
    exact h.2 p

theorem shapeEq_modify_keep (w : World) (id : NodeId) (g : Node → Node)
    (hg : ∀ nd, (g nd).children = nd.children ∧ (g nd).parent = nd.parent) :
    shapeEq w (w.modify id g) := by
  intro n
  rw [World.get_modify]
  by_cases hn : n = id <;> simp [hn, hg]

theorem shapeEq_mutateLocal (w : World) (id : NodeId) (g : Node → Node)
    (hg : ∀ nd, (g nd).children = nd.children ∧ (g nd).parent = nd.parent) :
    shapeEq w (mutateLocal w id g) := by
  rw [mutateLocal]
  refine shapeEq_modify_keep w id _ (fun nd => ?_)
  simp [invalidateLocalModel, hg]

theorem shapeEq_revalidateModel (w : World) (id : NodeId) :
    shapeEq w (revalidateModel w id).1 := by
  have hc : (revalNode w id).children = (w.get id).children := (revalNode_statics w id).2.1
  have hpp : (revalNode w id).parent = (w.get id).parent := (revalNode_statics w id).1
  intro n
  rw [revalidateModel_fst, invalidateChildren_get, hc, World.get_set]
  by_cases hn : n = id
  · subst hn
    by_cases hmem : n ∈ (w.get n).children <;>
      simp [hmem, invalidateModel, hc, hpp]
  · by_cases hmem : n ∈ (w.get id).children <;>
      simp [hmem, hn, invalidateModel]

theorem shapeEq_update (fuel : Nat) (w : World) (id : NodeId) :
    shapeEq w (update fuel w id).1 := by
  induction fuel generalizing w id with
  | zero => simpa [update] using shapeEq_refl w
  | succ f ih =>
    rw [update_succ]
    have hrev : shapeEq w (if (w.get id).is_model_valid = true then (w, ([] : List Inv))
        else revalidateModel w id).1 := by
      by_cases hv : (w.get id).is_model_valid = true
      · simpa [hv] using shapeEq_refl w
      · simpa [hv] using shapeEq_revalidateModel w id
    have haux : ∀ cs w', shapeEq w w' → shapeEq w (updateChildren f w' cs).1 := by
      intro cs
      induction cs with
      | nil => intro w' hw'; simpa [updateChildren]
      | cons c rest ihc =>
        intro w' hw'
        rw [updateChildren]
        exact ihc _ (shapeEq_trans hw' (ih w' c))
    exact haux _ _ hrev

theorem StructInv_addChild (w : World) (pid cid : NodeId)
    (h : StructInv w) : StructInv (addChild w pid cid).1 := by
  cases hpar : (w.get cid).parent with
  | some q =>
    rw [addChild_parented_eq w pid cid q hpar]
    exact h
  | none =>
    by_cases h2 : cid ∈ (w.get pid).children
    · have hc : hasChild w pid cid = true := by
        simp [hasChild, List.elem_iff]
        exact h2
      rw [addChild]
      simp only [hpar, Option.isSome_none, Bool.false_eq_true, if_false, hc, if_pos]
      exact h
    · have hch := addChild_children w pid cid hpar h2
      have hp' := addChild_parent w pid cid hpar h2
      refine ⟨fun p c => ?_, fun p => ?_⟩
      · rw [hch p, hp' c]
        by_cases hc : c = cid
        · subst hc
          by_cases hp : p = pid
          · subst hp
            simp
          · simp only [hp, if_false]
            constructor
            · intro hmem
              have := (h.1 p c).mp hmem
              rw [hpar] at this
              exact absurd this (by simp)
            · intro hsome
              have : pid = p := by
                injection hsome
              exact absurd this.symm hp
        · by_cases hp : p = pid
          · subst hp
            simp only [if_pos, hc, if_false, List.mem_append, List.mem_singleton, or_false]
            exact h.1 p c
          · simp only [hp, hc, if_false]
            exact h.1 p c
      · rw [hch p]
        by_cases hp : p = pid
        · subst hp
          simp [List.nodup_append, h.2 p, h2]
        · simp only [hp, if_false]
          exact h.2 p

theorem StructInv_removeChild (w : World) (pid cid : NodeId)
    (h : StructInv w) : StructInv (removeChild w pid cid).1 := by
  by_cases hmem : cid ∈ (w.get pid).children
  · have hch := removeChild_children w pid cid hmem
    have hp' := removeChild_parent w pid cid hmem
    have hcidpar : (w.get cid).parent = some pid := (h.1 pid cid).mp hmem
    refine ⟨fun p c => ?_, fun p => ?_⟩
    · rw [hch p, hp' c]
      by_cases hc : c = cid
      · subst hc
        by_cases hp : p = pid
        · subst hp
          simp [List.Nodup.not_mem_erase (h.2 p)]
        · simp only [hp, if_false, if_pos]
          constructor
          · intro hmem'
            have := (h.1 p c).mp hmem'
            rw [hcidpar] at this
            have : pid = p := by injection this
            exact absurd this.symm hp
          · intro hnone
            exact absurd hnone (by simp)
      · by_cases hp : p = pid
        · subst hp
          rw [if_pos rfl, List.mem_erase_of_ne hc]
          simp only [hc, if_false]
          exact h.1 p c
        · simp only [hp, hc, if_false]
          exact h.1 p c
    · rw [hch p]
      by_cases hp : p = pid
      · subst hp
        rw [if_pos rfl]
        exact (h.2 p).erase cid
      · simp only [hp, if_false]
        exact h.2 p
  · rw [removeChild_noop w pid cid hmem]
    exact h

theorem StructInv_removeAll (cs : List NodeId) (w : World) (pid : NodeId)
    (h : StructInv w) : StructInv (removeAll w pid cs).1 := by
  induction cs generalizing w with
  | nil => simpa [removeAll]
  | cons c rest ih =>
    rw [removeAll]
    exact ih _ (StructInv_removeChild w pid c h)

theorem StructInv_destroy (fuel : Nat) (w : World) (id : NodeId)
    (h : StructInv w) : StructInv (destroy fuel w id).1 := by
  induction fuel generalizing w id with
  | zero => simpa [destroy]
  | succ f ih =>
    rw [destroy_succ]
    have hdet : StructInv (match (w.get id).parent with
        | some pid => (let r := removeChild w pid id; (r.1, r.2.1))
        | none => (w, ([] : List Inv))).1 := by
      cases hp : (w.get id).parent with
      | none => simpa
      | some pid => exact StructInv_removeChild w pid id h
    have hclr : ∀ w', StructInv w' → StructInv (w'.modify id clearListeners) := by
      intro w' hw'
      exact StructInv_of_shapeEq
        (shapeEq_modify_keep w' id _ (fun nd => ⟨rfl, rfl⟩)) hw'
    have haux : ∀ cs w', StructInv w' → StructInv (destroyChildren f id w' cs).1 := by
      intro cs
      induction cs with
      | nil => intro w' hw'; simpa [destroyChildren]
      | cons c rest ihc =>
        intro w' hw'
        rw [destroyChildren]
        exact ihc _ (ih _ c (StructInv_removeChild w' id c hw'))
    exact haux _ _ (hclr _ hdet)

theorem StructInv_applyOp (w : World) (op : Op) (h : StructInv w) :
    StructInv (applyOp w op) := by
  cases op with
  | setName id s =>
    exact StructInv_of_shapeEq (shapeEq_modify_keep w id _ (fun nd => ⟨rfl, rfl⟩)) h
  | setOrigin id v =>
    exact StructInv_of_shapeEq (shapeEq_mutateLocal w id _ (fun nd => ⟨rfl, rfl⟩)) h
  | setOrientation id q =>
    exact StructInv_of_shapeEq (shapeEq_mutateLocal w id _ (fun nd => ⟨rfl, rfl⟩)) h
  | setSize id v =>
    exact StructInv_of_shapeEq (shapeEq_mutateLocal w id _ (fun nd => ⟨rfl, rfl⟩)) h
  | translate id v =>
    exact StructInv_of_shapeEq (shapeEq_mutateLocal w id _ (fun nd => ⟨rfl, rfl⟩)) h
  | translateX id d =>
    exact StructInv_of_shapeEq (shapeEq_mutateLocal w id _ (fun nd => ⟨rfl, rfl⟩)) h
  | translateY id d =>
    exact StructInv_of_shapeEq (shapeEq_mutateLocal w id _ (fun nd => ⟨rfl, rfl⟩)) h
  | translateZ id d =>
    exact StructInv_of_shapeEq (shapeEq_mutateLocal w id _ (fun nd => ⟨rfl, rfl⟩)) h
  | scaleMul id v =>
    exact StructInv_of_shapeEq (shapeEq_mutateLocal w id _ (fun nd => ⟨rfl, rfl⟩)) h
  | rotate id c s axis =>
    exact StructInv_of_shapeEq (shapeEq_mutateLocal w id _ (fun nd => ⟨rfl, rfl⟩)) h
  | rotateX id c s =>
    exact StructInv_of_shapeEq (shapeEq_mutateLocal w id _ (fun nd => ⟨rfl, rfl⟩)) h
  | rotateY id c s =>
    exact StructInv_of_shapeEq (shapeEq_mutateLocal w id _ (fun nd => ⟨rfl, rfl⟩)) h
  | rotateZ id c s =>
    exact StructInv_of_shapeEq (shapeEq_mutateLocal w id _ (fun nd => ⟨rfl, rfl⟩)) h
  | addChild pid cid => exact StructInv_addChild w pid cid h
  | removeChild pid cid => exact StructInv_removeChild w pid cid h
  | clearChildren id => exact StructInv_removeAll _ w id h
  | destroy fuel id => exact StructInv_destroy fuel w id h
  | update fuel id => exact StructInv_of_shapeEq (shapeEq_update fuel w id) h
  | onEvent id ev cb =>
    exact StructInv_of_shapeEq (shapeEq_modify_keep w id _ (fun nd => ⟨rfl, rfl⟩)) h

theorem StructInv_applyOps (ops : List Op) (w : World) (h : StructInv w) :
    StructInv (applyOps w ops) := by
  induction ops generalizing w with
  | nil => simpa [applyOps]
  | cons op rest ih =>
    rw [applyOps]
    exact ih _ (StructInv_applyOp w op h)

theorem StructInv_initialWorld : StructInv initialWorld := by
  constructor
  · intro p c
    simp [initialWorld, World.get, freshNode]
  · intro p
    simp [initialWorld, World.get, freshNode]

/-!
## Claim C5: `addChild` on an already-parented node
-/

/-- C5: Calling `addChild` with a node whose parent is already set fails
immediately with the structural-constraint error, fires no event, and leaves
the world (both trees, all parent/child relationships) completely
unchanged. -/
theorem addChild_already_parented_fails (w : World) (pid cid q : NodeId)
    (h : (w.get cid).parent = some q) :
    addChild w pid cid =
      (w, [], some "Unable to add the specified object to this node as it already has a parent.") :=
  addChild_parented_eq w pid cid q h

/-- Witness for C5 at a concrete input: node 1 was adopted by node 0, so a
second `addChild` from node 2 fails and changes nothing. -/
theorem addChild_already_parented_fails_witness :
    addChild (applyOps initialWorld [Op.addChild 0 1]) 2 1 =
      (applyOps initialWorld [Op.addChild 0 1], [],
       some "Unable to add the specified object to this node as it already has a parent.") :=
  addChild_already_parented_fails (applyOps initialWorld [Op.addChild 0 1]) 2 1 0 (by decide)

/-!
## Claim C7: `addChild` then `removeChild` round-trip
-/

/-- C7: For a parentless node, `addChild` followed immediately by
`removeChild` on the same parent/child pair restores `hasChild = false` and
`parent = undefined`, and leaves the child's `modelValid` flag false. -/
theorem addChild_removeChild_roundtrip (w : World) (pid cid : NodeId)
    (h1 : (w.get cid).parent = none) (h2 : cid ∉ (w.get pid).children) :
    hasChild (removeChild (addChild w pid cid).1 pid cid).1 pid cid = false ∧
      ((removeChild (addChild w pid cid).1 pid cid).1.get cid).parent = none ∧
      ((removeChild (addChild w pid cid).1 pid cid).1.get cid).is_model_valid = false := by
  have hadd := addChild_succeeds_get w pid cid h1 h2
  have hch1 : ((addChild w pid cid).1.get pid).children = (w.get pid).children ++ [cid] := by
    rw [hadd pid]
    by_cases hpc : pid = cid <;> simp [hpc, invalidateModel]
  have hmem : cid ∈ ((addChild w pid cid).1.get pid).children := by
    rw [hch1]
    exact List.mem_append_right _ (List.mem_singleton.mpr rfl)
  have hrem := removeChild_succeeds_get (addChild w pid cid).1 pid cid hmem
  refine ⟨?_, ?_, ?_⟩
  · have hstep : ((removeChild (addChild w pid cid).1 pid cid).1.get pid).children =
        ((addChild w pid cid).1.get pid).children.erase cid := by
      rw [hrem pid]
      by_cases hpc : pid = cid <;> simp [hpc, invalidateModel]
    have hchrem : ((removeChild (addChild w pid cid).1 pid cid).1.get pid).children =
        (w.get pid).children := by
      rw [hstep, hch1, List.erase_append_right _ h2]
      simp
    simp [hasChild, hchrem, List.elem_iff]
    exact h2
  · rw [hrem cid]
    simp [invalidateModel]
  · rw [hrem cid]
    simp [invalidateModel]

/-- Witness for C7 at a concrete input: fresh nodes 0 and 1. -/
theorem addChild_removeChild_roundtrip_witness :
    hasChild (removeChild (addChild initialWorld 0 1).1 0 1).1 0 1 = false ∧
      ((removeChild (addChild initialWorld 0 1).1 0 1).1.get 1).parent = none ∧
      ((removeChild (addChild initialWorld 0 1).1 0 1).1.get 1).is_model_valid = false :=
  addChild_removeChild_roundtrip initialWorld 0 1 (by decide) (by decide)

/-!
## Claim C9: two `origin` listeners, one setter call
-/

/-- C9: Registering two listeners for `origin` on a node and then calling the
`origin` setter once invokes both callbacks exactly once each, in
registration order, each receiving the new origin value. -/
theorem setOrigin_two_listeners_in_order (w : World) (n : NodeId) (cb1 cb2 : Nat) (v : Vec3)
    (h : ∀ l ∈ (w.get n).listeners, l.1 ≠ "origin") :
    (setOrigin (onEvent (onEvent w n "origin" cb1) n "origin" cb2) n v).2 =
      [⟨n, cb1, "origin", .vec v⟩, ⟨n, cb2, "origin", .vec v⟩] := by
  simp only [setOrigin, notify, mutateLocal, invalidateLocalModel, onEvent,
    World.get_modify_same]
  simp only [List.append_assoc, List.filterMap_append]
  have hz : (w.get n).listeners.filterMap
      (fun l => if l.1 = "origin" then
        some (⟨n, l.2, "origin", EvArg.vec v⟩ : Inv) else none) = [] := by
    rw [List.filterMap_eq_nil]
    intro l hl
    simp [h l hl]
  simp [hz]

/-- Witness for C9 at a concrete input: fresh node 7, callbacks 100 and 200,
new origin `(1,2,3)`. -/
theorem setOrigin_two_listeners_in_order_witness :
    (setOrigin (onEvent (onEvent initialWorld 7 "origin" 100) 7 "origin" 200) 7 ⟨1, 2, 3⟩).2 =
      [⟨7, 100, "origin", .vec ⟨1, 2, 3⟩⟩, ⟨7, 200, "origin", .vec ⟨1, 2, 3⟩⟩] :=
  setOrigin_two_listeners_in_order initialWorld 7 100 200 ⟨1, 2, 3⟩ (by decide)

/-!
## Trace lemmas for `destroy` (claim C10)
-/

/-- Every invocation delivered by `notify` targets the notified node and
carries the notified event. -/
theorem notify_node_event {w : World} {id : NodeId} {ev : String} {a : EvArg} {inv : Inv}
    (h : inv ∈ notify w id ev a) : inv.node = id ∧ inv.event = ev := by
  obtain ⟨l, hl, hif⟩ := List.mem_filterMap.mp h
  by_cases he : l.1 = ev
  · rw [if_pos he] at hif
    cases hif
    exact ⟨rfl, rfl⟩
  · rw [if_neg he] at hif
    cases hif

/-- `notify` on a node with no registered listeners delivers nothing. -/
theorem notify_empty {w : World} {id : NodeId} (ev : String) (a : EvArg)
    (h : (w.get id).listeners = []) : notify w id ev a = [] := by
  simp [notify, h]

/-- The trace of a `removeChild` call is either empty or a single `notify`
of `remove` on the parent. -/
theorem removeChild_trace_cases (w : World) (pid cid : NodeId) :
    (removeChild w pid cid).2.1 =
        notify (removeChild w pid cid).1 pid "remove" (.pair pid cid) ∨
      (removeChild w pid cid).2.1 = [] := by
  rw [removeChild]
  by_cases hc : hasChild w pid cid <;> simp [hc]

/-- Every invocation of a `removeChild` trace is a `remove` on the parent. -/
theorem removeChild_inv {w : World} {pid cid : NodeId} {inv : Inv}
    (h : inv ∈ (removeChild w pid cid).2.1) :
    inv.node = pid ∧ inv.event = "remove" := by
  rcases removeChild_trace_cases w pid cid with hc | hc
  · rw [hc] at h
    exact notify_node_event h
  · rw [hc] at h
    cases h

/-- `removeChild` delivers nothing when the parent has no listeners. -/
theorem removeChild_trace_empty {w : World} {pid cid : NodeId}
    (h : (w.get pid).listeners = []) : (removeChild w pid cid).2.1 = [] := by
  rcases removeChild_trace_cases w pid cid with hc | hc
  · rw [hc]
    exact notify_empty _ _ ((removeChild_listeners w pid cid pid).trans h)
  · exact hc

/-- `destroy` either leaves a node's listener list unchanged or clears it. -/
theorem destroy_listeners (fuel : Nat) (w : World) (y n : NodeId) :
    ((destroy fuel w y).1.get n).listeners = (w.get n).listeners ∨
      ((destroy fuel w y).1.get n).listeners = [] := by
  induction fuel generalizing w y n with
  | zero => left; rw [destroy]
  | succ f ih =>
    rw [destroy_succ]
    have haux : ∀ cs w' n, ((destroyChildren f y w' cs).1.get n).listeners =
        (w'.get n).listeners ∨ ((destroyChildren f y w' cs).1.get n).listeners = [] := by
      intro cs
      induction cs with
      | nil => intro w' n; left; rw [destroyChildren]
      | cons c rest ihc =>
        intro w' n
        rw [destroyChildren]
        rcases ihc (destroy f (removeChild w' y c).1 c).1 n with h1 | h1
        · rw [h1]
          rcases ih (removeChild w' y c).1 c n with h2 | h2
          · rw [h2, removeChild_listeners]
            left
            rfl
          · right
            exact h2
        · right
          exact h1
    have hdet : ∀ m, ((match (w.get y).parent with
        | some pid => (let r := removeChild w pid y; (r.1, r.2.1))
        | none => (w, ([] : List Inv))).1.get m).listeners = (w.get m).listeners := by
      intro m
      cases hp : (w.get y).parent with
      | none => rfl
      | some pid => exact removeChild_listeners w pid y m
    have hclr : ∀ (w' : World) m, ((w'.modify y clearListeners).get m).listeners =
        (w'.get m).listeners ∨ ((w'.modify y clearListeners).get m).listeners = [] := by
      intro w' m
      rw [World.get_modify]
      by_cases hm : m = y
      · right
        simp [hm, clearListeners]
      · left
        simp [hm]
    rcases haux _ _ n with h1 | h1
    · rw [h1]
      rcases hclr _ n with h2 | h2
      · rw [h2, hdet n]
        left
        rfl
      · right
        exact h2
    · right
      exact h1

/-- Parallel statement for the child-destruction loop. -/
theorem destroyChildren_listeners (fuel : Nat) (pid : NodeId) (cs : List NodeId)
    (w : World) (n : NodeId) :
    ((destroyChildren fuel pid w cs).1.get n).listeners = (w.get n).listeners ∨
      ((destroyChildren fuel pid w cs).1.get n).listeners = [] := by
  induction cs generalizing w with
  | nil => left; rw [destroyChildren]
  | cons c rest ihc =>
    rw [destroyChildren]
    rcases ihc (destroy fuel (removeChild w pid c).1 c).1 with h1 | h1
    · rw [h1]
      rcases destroy_listeners fuel (removeChild w pid c).1 c n with h2 | h2
      · rw [h2, removeChild_listeners]
        left
        rfl
      · right
        exact h2
    · right
      exact h1

/-- No invocation of a `destroy`-run ever targets a node whose listener list
is empty when the run starts (listeners only shrink during `destroy`). -/
theorem destroy_no_inv_on_cleared (fuel : Nat) (w : World) (y t : NodeId)
    (ht : (w.get t).listeners = []) :
    ∀ inv ∈ (destroy fuel w y).2, inv.node ≠ t := by
  induction fuel generalizing w y with
  | zero =>
    rw [destroy]
    intro inv hinv
    cases hinv
  | succ f ih =>
    rw [destroy_succ]
    have haux : ∀ cs w', (w'.get t).listeners = [] →
        ∀ inv ∈ (destroyChildren f y w' cs).2, inv.node ≠ t := by
      intro cs
      induction cs with
      | nil =>
        intro w' _ inv hinv
        rw [destroyChildren] at hinv
        cases hinv
      | cons c rest ihc =>
        intro w' hw' inv hinv
        rw [destroyChildren] at hinv
        simp only [List.mem_append] at hinv
        rcases hinv with (h1 | h2) | h3
        · intro hnode
          have hne := removeChild_inv h1
          by_cases hy : y = t
          · subst hy
            rw [removeChild_trace_empty hw'] at h1
            cases h1
          · exact hy (hne.1.symm.trans hnode)
        · exact ih _ c ((removeChild_listeners w' y c t).trans hw') inv h2
        · refine ihc _ ?_ inv h3
          rcases destroy_listeners f (removeChild w' y c).1 c t with hh | hh
          · rw [hh, removeChild_listeners]
            exact hw'
          · exact hh
    intro inv hinv
    simp only [List.mem_append] at hinv
    have hw2 : (((match (w.get y).parent with
        | some pid => (let r := removeChild w pid y; (r.1, r.2.1))
        | none => (w, ([] : List Inv))).1.modify y clearListeners).get t).listeners = [] := by
      rw [World.get_modify]
      by_cases hy : t = y
      · simp [hy, clearListeners]
      · simp only [hy, if_false]
        cases hp : (w.get y).parent with
        | none => exact ht
        | some pid => exact (removeChild_listeners w pid y t).trans ht
    rcases hinv with (h1 | h2) | h3
    · cases hp : (w.get y).parent with
      | none =>
        rw [hp] at h1
        cases h1
      | some pid =>
        rw [hp] at h1
        have h1' : inv ∈ (removeChild w pid y).2.1 := h1
        intro hnode
        have hne := removeChild_inv h1'
        by_cases hpi : pid = t
        · subst hpi
          rw [removeChild_trace_empty ht] at h1'
          cases h1'
        · exact hpi (hne.1.symm.trans hnode)
    · exact haux _ _ hw2 inv h2
    · by_cases hy : y = t
      · subst hy
        rw [notify_empty _ _ (by
          rcases destroyChildren_listeners f y _ _ y with hh | hh
          · rw [hh]
            exact hw2
          · exact hh)] at h3
        cases h3
      · intro hnode
        exact hy ((notify_node_event h3).1.symm.trans hnode)

/-- Parallel statement for the child-destruction loop. -/
theorem destroyChildren_no_inv_on_cleared (fuel : Nat) (pid : NodeId) (cs : List NodeId)
    (w : World) (t : NodeId) (ht : (w.get t).listeners = []) :
    ∀ inv ∈ (destroyChildren fuel pid w cs).2, inv.node ≠ t := by
  induction cs generalizing w with
  | nil =>
    intro inv hinv
    rw [destroyChildren] at hinv
    cases hinv
  | cons c rest ihc =>
    intro inv hinv
    rw [destroyChildren] at hinv
    simp only [List.mem_append] at hinv
    rcases hinv with (h1 | h2) | h3
    · intro hnode
      have hne := removeChild_inv h1
      by_cases hy : pid = t
      · subst hy
        rw [removeChild_trace_empty ht] at h1
        cases h1
      · exact hy (hne.1.symm.trans hnode)
    · exact destroy_no_inv_on_cleared fuel _ c t
        ((removeChild_listeners w pid c t).trans ht) inv h2
    · refine ihc _ ?_ inv h3
      rcases destroy_listeners fuel (removeChild w pid c).1 c t with hh | hh
      · rw [hh, removeChild_listeners]
        exact ht
      · exact hh

/-- No invocation of a `destroy`-run ever carries the `destroy` event: by the
time `notify('destroy')` fires, the notifying node's listeners are cleared. -/
theorem destroy_no_destroy_event (fuel : Nat) (w : World) (y : NodeId) :
    ∀ inv ∈ (destroy fuel w y).2, inv.event ≠ "destroy" := by
  induction fuel generalizing w y with
  | zero =>
    rw [destroy]
    intro inv hinv
    cases hinv
  | succ f ih =>
    rw [destroy_succ]
    have haux : ∀ cs w', ∀ inv ∈ (destroyChildren f y w' cs).2, inv.event ≠ "destroy" := by
      intro cs
      induction cs with
      | nil =>
        intro w' inv hinv
        rw [destroyChildren] at hinv
        cases hinv
      | cons c rest ihc =>
        intro w' inv hinv
        rw [destroyChildren] at hinv
        simp only [List.mem_append] at hinv
        rcases hinv with (h1 | h2) | h3
        · rw [(removeChild_inv h1).2]
          decide
        · exact ih _ c inv h2
        · exact ihc _ inv h3
    intro inv hinv
    simp only [List.mem_append] at hinv
    rcases hinv with (h1 | h2) | h3
    · cases hp : (w.get y).parent with
      | none =>
        rw [hp] at h1
        cases h1
      | some pid =>
        rw [hp] at h1
        have h1' : inv ∈ (removeChild w pid y).2.1 := h1
        rw [(removeChild_inv h1').2]
        decide
    · exact haux _ _ inv h2
    · have hcleared : (((match (w.get y).parent with
          | some pid => (let r := removeChild w pid y; (r.1, r.2.1))
          | none => (w, ([] : List Inv))).1.modify y clearListeners).get y).listeners = [] := by
        rw [World.get_modify]
        simp [clearListeners]
      rw [notify_empty _ _ (by
        rcases destroyChildren_listeners f y _ _ y with hh | hh
        · rw [hh]
          exact hcleared
        · exact hh)] at h3
      cases h3

/-!
## Claim C10: a node`s own `destroy()` never reaches its own listeners
-/

/-- C10: `destroy()` clears the node's listeners before emitting anything on
that node, so no invocation of the whole run carries the `destroy` event
(for this node or, recursively, any descendant), and the only way an
invocation can target the destroyed node itself is the degenerate world in
which the node is its own parent (the parent-detach `remove` notification).
In particular, a callback registered for `destroy` on the node is never
invoked by its own `destroy()`, and the `remove` events fired while
detaching children reach no listener of the destroyed node. -/
theorem destroy_never_notifies_own_listeners (fuel : Nat) (w : World) (id : NodeId) :
    ∀ inv ∈ (destroy fuel w id).2,
      inv.event ≠ "destroy" ∧ (inv.node = id → (w.get id).parent = some id) := by
  intro inv hinv
  refine ⟨destroy_no_destroy_event fuel w id inv hinv, ?_⟩
  intro hnode
  cases fuel with
  | zero =>
    rw [destroy] at hinv
    cases hinv
  | succ f =>
    rw [destroy_succ] at hinv
    simp only [List.mem_append] at hinv
    have hw2 : (((match (w.get id).parent with
        | some pid => (let r := removeChild w pid id; (r.1, r.2.1))
        | none => (w, ([] : List Inv))).1.modify id clearListeners).get id).listeners = [] := by
      rw [World.get_modify]
      simp [clearListeners]
    rcases hinv with (h1 | h2) | h3
    · cases hp : (w.get id).parent with
      | none =>
        rw [hp] at h1
        cases h1
      | some pid =>
        rw [hp] at h1
        have h1' : inv ∈ (removeChild w pid id).2.1 := h1
        rw [← (removeChild_inv h1').1, hnode]
    · exact absurd hnode
        (destroyChildren_no_inv_on_cleared f id _ _ id hw2 inv (by exact h2))
    · exact absurd hnode (by
        intro hnode'
        rw [notify_empty "destroy" EvArg.noArg (by
          rcases destroyChildren_listeners f id (((match (w.get id).parent with
            | some pid => (let r := removeChild w pid id; (r.1, r.2.1))
            | none => (w, ([] : List Inv))).1.modify id clearListeners).get id).children
            ((match (w.get id).parent with
            | some pid => (let r := removeChild w pid id; (r.1, r.2.1))
            | none => (w, ([] : List Inv))).1.modify id clearListeners) id with hh | hh
          · rw [hh]
            exact hw2
          · exact hh)] at h3
        cases h3)

/-- Witness for C10 at a concrete input: node 1 (child of node 0, whose
`remove` listener fires during the detach) is destroyed; the delivered
invocation is a `remove` on node 0, not a `destroy`, and it does not target
node 1. -/
theorem destroy_never_notifies_own_listeners_witness :
    (⟨0, 7, "remove", .pair 0 1⟩ : Inv) ∈
        (destroy 2 (applyOps initialWorld [.onEvent 0 "remove" 7, .addChild 0 1]) 1).2 ∧
      (⟨0, 7, "remove", .pair 0 1⟩ : Inv).event ≠ "destroy" ∧
      ((⟨0, 7, "remove", .pair 0 1⟩ : Inv).node = 1 →
        ((applyOps initialWorld [.onEvent 0 "remove" 7, .addChild 0 1]).get 1).parent = some 1) :=
  ⟨by decide,
   destroy_never_notifies_own_listeners 2
     (applyOps initialWorld [.onEvent 0 "remove" 7, .addChild 0 1]) 1
     ⟨0, 7, "remove", .pair 0 1⟩ (by decide)⟩

/-!
## Claim C6: bidirectional consistency of the hierarchy
-/

/-- C6: After any sequence of operations (in particular any sequence of
completed `addChild`, `removeChild`, `clearChildren` and `destroy` calls)
starting from freshly-constructed nodes, a node appears in another node's
child set if and only if its parent reference points to that other node. -/
theorem child_set_parent_bidirectional (ops : List Op) (p c : NodeId) :
    c ∈ ((applyOps initialWorld ops).get p).children ↔
      ((applyOps initialWorld ops).get c).parent = some p :=
  (StructInv_applyOps ops initialWorld StructInv_initialWorld).1 p c

/-- C8: After `destroy()` on the root of a depth-2 subtree, every node of the
subtree has `parent = undefined` and zero registered listeners, and no node
anywhere retains a destroyed node in its child set. -/
theorem destroy_subtree_depth2_detaches_all :
    (∀ d ∈ [0, 1, 2, 3], ((applyOps initialWorld destroyScenarioOps).get d).parent = none ∧
      ((applyOps initialWorld destroyScenarioOps).get d).listeners = []) ∧
    (∀ p : NodeId, ∀ d ∈ [0, 1, 2, 3],
      d ∉ ((applyOps initialWorld destroyScenarioOps).get p).children) := by
  constructor
  · decide
  · intro p d hd hmem
    have hpar : ((applyOps initialWorld destroyScenarioOps).get d).parent = some p :=
      ((StructInv_applyOps destroyScenarioOps initialWorld StructInv_initialWorld).1 p d).mp hmem
    have hnone : ((applyOps initialWorld destroyScenarioOps).get d).parent = none := by
      fin_cases hd <;> decide
    rw [hnone] at hpar
    cases hpar

/-- Witness for C8 at concrete nodes: the grandchild 3 is fully detached and
listener-free, and the outer parent 10 retains no destroyed node. -/
theorem destroy_subtree_depth2_detaches_all_witness :
    ((applyOps initialWorld destroyScenarioOps).get 3).parent = none ∧
      ((applyOps initialWorld destroyScenarioOps).get 3).listeners = [] ∧
      3 ∉ ((applyOps initialWorld destroyScenarioOps).get 10).children :=
  ⟨(destroy_subtree_depth2_detaches_all.1 3 (by decide)).1,
   (destroy_subtree_depth2_detaches_all.1 3 (by decide)).2,
   destroy_subtree_depth2_detaches_all.2 10 3 (by decide)⟩

theorem staticEq_refl (a : Node) : staticEq a a := ⟨rfl, rfl, rfl, rfl, rfl, rfl⟩

theorem staticEq_trans {a b c : Node} (h1 : staticEq a b) (h2 : staticEq b c) :
    staticEq a c :=
  ⟨h1.1.trans h2.1, h1.2.1.trans h2.2.1, h1.2.2.1.trans h2.2.2.1,
   h1.2.2.2.1.trans h2.2.2.2.1, h1.2.2.2.2.1.trans h2.2.2.2.2.1,
   h1.2.2.2.2.2.trans h2.2.2.2.2.2⟩

theorem keepsStatic_refl (w : World) : keepsStatic w w := fun _ => staticEq_refl _

theorem keepsStatic_trans {w1 w2 w3 : World} (h1 : keepsStatic w1 w2)
    (h2 : keepsStatic w2 w3) : keepsStatic w1 w3 :=
  fun n => staticEq_trans (h1 n) (h2 n)

theorem staticEq_invalidateModel (a : Node) : staticEq a (invalidateModel a) :=
  ⟨rfl, rfl, rfl, rfl, rfl, rfl⟩

theorem keepsStatic_revalidateModel (w : World) (id : NodeId) :
    keepsStatic w (revalidateModel w id).1 := by
  have hs := revalNode_statics w id
  intro n
  rw [revalidateModel_fst, invalidateChildren_get, hs.2.1, World.get_set]
  by_cases hn : n = id
  · subst hn
    by_cases hmem : n ∈ (w.get n).children <;>
      exact ⟨by simp [hmem, invalidateModel, hs.1], by simp [hmem, invalidateModel, hs.2.1],
        by simp [hmem, invalidateModel, hs.2.2.1], by simp [hmem, invalidateModel, hs.2.2.2.1],
        by simp [hmem, invalidateModel, hs.2.2.2.2.1],
        by simp [hmem, invalidateModel, hs.2.2.2.2.2.1]⟩
  · by_cases hmem : n ∈ (w.get id).children
    · simp only [hmem, if_pos, hn, if_false]
      exact staticEq_invalidateModel _
    · simp only [hmem, hn, if_false]
      exact staticEq_refl _

theorem keepsStatic_update (fuel : Nat) (w : World) (id : NodeId) :
    keepsStatic w (update fuel w id).1 := by
  induction fuel generalizing w id with
  | zero => simpa [update] using keepsStatic_refl w
  | succ f ih =>
    rw [update_succ]
    have hrev : keepsStatic w (if (w.get id).is_model_valid = true then (w, ([] : List Inv))
        else revalidateModel w id).1 := by
      by_cases hv : (w.get id).is_model_valid = true
      · simpa [hv] using keepsStatic_refl w
      · simpa [hv] using keepsStatic_revalidateModel w id
    have haux : ∀ cs w', keepsStatic w w' → keepsStatic w (updateChildren f w' cs).1 := by
      intro cs
      induction cs with
      | nil => intro w' hw'; simpa [updateChildren]
      | cons c rest ihc =>
        intro w' hw'
        rw [updateChildren]
        exact ihc _ (keepsStatic_trans hw' (ih w' c))
    exact haux _ _ hrev

theorem list_all_congr {α : Type} {l : List α} {f g : α → Bool}
    (h : ∀ a ∈ l, f a = g a) : l.all f = l.all g := by
  induction l with
  | nil => rfl
  | cons a rest ih =>
    simp only [List.all_cons, h a (List.mem_cons_self a rest)]
    rw [ih (fun b hb => h b (List.mem_cons_of_mem a hb))]

theorem subtreeIds_self_mem (h : Nat) (w : World) (id : NodeId) :
    id ∈ subtreeIds h w id := by
  cases h <;> simp [subtreeIds]

theorem subtreeIds_congr {w w' : World}
    (hch : ∀ n, (w'.get n).children = (w.get n).children) :
    ∀ (h : Nat) (id : NodeId), subtreeIds h w' id = subtreeIds h w id := by
  intro h
  induction h with
  | zero => intro id; rfl
  | succ h' ih =>
    intro id
    have hfun : subtreeIds h' w' = subtreeIds h' w := funext ih
    rw [subtreeIds, subtreeIds, hch id, hfun]

theorem parentsOKb_succ_iff (h : Nat) (w : World) (id : NodeId) :
    parentsOKb (h + 1) w id = true ↔
      ∀ c ∈ (w.get id).children, (w.get c).parent = some id ∧ parentsOKb h w c = true := by
  rw [parentsOKb]
  simp [List.all_eq_true, Bool.and_eq_true, beq_iff_eq]

theorem parentsOKb_congr {w w' : World}
    (hch : ∀ n, (w'.get n).children = (w.get n).children)
    (hp : ∀ n, (w'.get n).parent = (w.get n).parent) :
    ∀ (h : Nat) (id : NodeId), parentsOKb h w' id = parentsOKb h w id := by
  intro h
  induction h with
  | zero => intro id; rw [parentsOKb, parentsOKb, hch id]
  | succ h' ih =>
    intro id
    rw [parentsOKb, parentsOKb, hch id]
    exact list_all_congr (fun c _ => by rw [hp c, ih c])

/-- Every subtree member is the root or has its parent reference inside the
subtree. -/
theorem subtree_parent_mem (h : Nat) (w : World) :
    ∀ r, parentsOKb h w r = true →
      ∀ n ∈ subtreeIds h w r, n = r ∨
        ∃ m ∈ subtreeIds h w r, (w.get n).parent = some m := by
  induction h with
  | zero =>
    intro r _ n hn
    rw [subtreeIds] at hn
    left
    exact List.mem_singleton.mp hn
  | succ h' ih =>
    intro r hpok n hn
    rw [subtreeIds] at hn
    rcases List.mem_cons.mp hn with rfl | hmem
    · left
      rfl
    · obtain ⟨l, hl, hnl⟩ := List.mem_flatten.mp hmem
      obtain ⟨c, hc, rfl⟩ := List.mem_map.mp hl
      have hcp := (parentsOKb_succ_iff h' w r).mp hpok c hc
      rcases ih c hcp.2 n hnl with rfl | ⟨m, hm, hpm⟩
      · right
        exact ⟨r, subtreeIds_self_mem _ w r, hcp.1⟩
      · right
        refine ⟨m, ?_, hpm⟩
        rw [subtreeIds]
        exact List.mem_cons_of_mem _
          (List.mem_flatten.mpr ⟨subtreeIds h' w c, List.mem_map_of_mem _ hc, hm⟩)

/-- Children are members of the one-deeper subtree. -/
theorem children_mem_subtree (h : Nat) (w : World) (id : NodeId) :
    ∀ c ∈ (w.get id).children, ∀ x ∈ subtreeIds h w c, x ∈ subtreeIds (h + 1) w id := by
  intro c hc x hx
  rw [subtreeIds]
  exact List.mem_cons_of_mem _
    (List.mem_flatten.mpr ⟨subtreeIds h w c, List.mem_map_of_mem _ hc, hx⟩)

theorem expectedWorld_congr {w w' : World} {n : NodeId} (hn : w'.get n = w.get n)
    (hp : ∀ p, (w.get n).parent = some p →
      (w'.get p).world_model = (w.get p).world_model) :
    expectedWorld w' n = expectedWorld w n := by
  rw [expectedWorld, expectedWorld, hn]
  cases hpar : (w.get n).parent with
  | none => rfl
  | some p =>
    show (w'.get p).world_model.mulM (w.get n).local_model =
      (w.get p).world_model.mulM (w.get n).local_model
    rw [hp p hpar]

theorem nodeOK_congr {w w' : World} {n : NodeId} (hn : w'.get n = w.get n)
    (hp : ∀ p, (w.get n).parent = some p →
      (w'.get p).world_model = (w.get p).world_model)
    (h : nodeOK w n) : nodeOK w' n := by
  obtain ⟨h1, h2, h3⟩ := h
  refine ⟨?_, ?_, ?_⟩
  · rw [hn]
    exact h1
  · rw [hn]
    exact h2
  · rw [worldEqAt, hn, expectedWorld_congr hn hp]
    exact h3

theorem validAt_congr {w w' : World} {n : NodeId} (hn : w'.get n = w.get n)
    (hp : ∀ p, (w.get n).parent = some p →
      (w'.get p).world_model = (w.get p).world_model)
    (h : validAt w n) : validAt w' n := by
  obtain ⟨h1, h2, h3, h4⟩ := h
  refine ⟨?_, ?_, ?_, ?_⟩
  · rw [hn]
    exact h1
  · rw [hn]
    exact h2
  · rw [hn]
    exact h3
  · rw [worldEqAt, hn, expectedWorld_congr hn hp]
    exact h4

theorem nodeOK_of_invalidated {w w' : World} {n : NodeId}
    (hn : w'.get n = invalidateModel (w.get n)) (h : nodeOK w n) : nodeOK w' n := by
  obtain ⟨h1, _, _⟩ := h
  refine ⟨?_, ?_, ?_⟩
  · rw [hn]
    intro hl
    exact h1 hl
  · rw [hn]
    intro hm
    exact absurd hm (by simp [invalidateModel])
  · rw [hn]
    intro hm
    exact absurd hm (by simp [invalidateModel])

theorem revalNode_local (w : World) (id : NodeId)
    (h1 : (w.get id).is_local_model_valid = true →
      (w.get id).local_model = specLocalOf (w.get id)) :
    (revalNode w id).local_model = specLocalOf (w.get id) := by
  unfold revalNode
  by_cases h : (w.get id).is_local_model_valid
  · simpa [h] using h1 h
  · simp only [Bool.not_eq_true] at h
    simp [h, composeChain_eq_specLocalModel, specLocalOf]

theorem revalNode_world_none (w : World) (id : NodeId)
    (hp : (w.get id).parent = none) :
    (revalNode w id).world_model = (revalNode w id).local_model := by
  unfold revalNode
  by_cases h : (w.get id).is_local_model_valid <;> simp [h, hp]

theorem revalNode_world_some (w : World) (id p : NodeId)
    (hp : (w.get id).parent = some p) :
    (revalNode w id).world_model =
      ((w.get p).world_model).mulM ((revalNode w id).local_model) := by
  unfold revalNode
  by_cases h : (w.get id).is_local_model_valid <;> simp [h, hp]

/-- Effect of the head step of `update` (revalidate-if-invalid) on a node
whose parent and children are distinct from it. -/
theorem update_step_head (w : World) (id : NodeId)
    (hok : nodeOK w id)
    (hid : id ∉ (w.get id).children)
    (hq : ∀ q, (w.get id).parent = some q → q ≠ id ∧ q ∉ (w.get id).children) :
    (∀ n, n ≠ id → n ∉ (w.get id).children →
      (if (w.get id).is_model_valid = true then (w, ([] : List Inv))
       else revalidateModel w id).1.get n = w.get n) ∧
    ((if (w.get id).is_model_valid = true then (w, ([] : List Inv))
       else revalidateModel w id).1 = w ∨
      ∀ n ∈ (w.get id).children,
        (if (w.get id).is_model_valid = true then (w, ([] : List Inv))
         else revalidateModel w id).1.get n = invalidateModel (w.get n)) ∧
    keepsStatic w (if (w.get id).is_model_valid = true then (w, ([] : List Inv))
       else revalidateModel w id).1 ∧
    (∀ n, n ≠ id →
      ((if (w.get id).is_model_valid = true then (w, ([] : List Inv))
       else revalidateModel w id).1.get n).world_model = (w.get n).world_model) ∧
    validAt (if (w.get id).is_model_valid = true then (w, ([] : List Inv))
       else revalidateModel w id).1 id := by
  by_cases hv : (w.get id).is_model_valid = true
  · rw [if_pos hv]
    refine ⟨fun n _ _ => rfl, Or.inl rfl, keepsStatic_refl w,
      fun n _ => rfl, hv, hok.2.1 hv, hok.1 (hok.2.1 hv), hok.2.2 hv⟩
  · rw [if_neg hv]
    have hself := revalidateModel_get_self w id hid
    have hother := revalidateModel_get_other w id
    refine ⟨?_, ?_, keepsStatic_revalidateModel w id, ?_, ?_⟩
    · intro n hn hnc
      rw [hother n hn]
      simp [hnc]
    · right
      intro n hnc
      by_cases hn : n = id
      · exact absurd (hn ▸ hnc) hid
      · rw [hother n hn]
        simp [hnc]
    · intro n hn
      rw [hother n hn]
      by_cases hnc : n ∈ (w.get id).children <;> simp [hnc, invalidateModel]
    · have hloc : ((revalidateModel w id).1.get id).local_model =
          specLocalOf (w.get id) := by
        rw [hself]
        exact revalNode_local w id hok.1
      have hstat : specLocalOf (w.get id) =
          specLocalOf ((revalidateModel w id).1.get id) := by
        rw [hself]
        unfold specLocalOf
        rw [(revalNode_statics w id).2.2.1, (revalNode_statics w id).2.2.2.1,
          (revalNode_statics w id).2.2.2.2.1]
      refine ⟨by rw [hself]; exact (revalNode_flags w id).1,
        by rw [hself]; exact (revalNode_flags w id).2, by rw [hloc]; exact hstat, ?_⟩
      rw [worldEqAt, expectedWorld, hself, (revalNode_statics w id).1]
      cases hpar : (w.get id).parent with
      | none => exact revalNode_world_none w id hpar
      | some q =>
        show (revalNode w id).world_model =
          ((revalidateModel w id).1.get q).world_model.mulM ((revalNode w id).local_model)
        have hqid := hq q hpar
        rw [hother q hqid.1]
        simp only [hqid.2, if_false]
        exact revalNode_world_some w id q hpar

/-- Soundness of the child-update loop of `update`, given soundness of
`update` itself for the subtree depth of the children. -/
theorem updateChildren_sound (h fuel : Nat)
    (IH : ∀ (w : World) (id : NodeId), parentsOKb h w id = true →
      (subtreeIds h w id).Nodup →
      (∀ n ∈ subtreeIds h w id, nodeOK w n) →
      (∀ q, (w.get id).parent = some q → q ∉ subtreeIds h w id) →
      UpdOut (subtreeIds h w id) w (update fuel w id).1) :
    ∀ (cs : List NodeId) (w : World) (pid : NodeId),
      (∀ c ∈ cs, parentsOKb h w c = true) →
      (∀ c ∈ cs, (w.get c).parent = some pid) →
      ((cs.map (subtreeIds h w)).flatten).Nodup →
      pid ∉ (cs.map (subtreeIds h w)).flatten →
      (∀ n ∈ (cs.map (subtreeIds h w)).flatten, nodeOK w n) →
      UpdOut ((cs.map (subtreeIds h w)).flatten) w (updateChildren fuel w cs).1 := by
  intro cs
  induction cs with
  | nil =>
    intro w pid _ _ _ _ _
    rw [updateChildren]
    exact ⟨fun n _ => rfl, keepsStatic_refl w, fun n hn => absurd hn (by simp)⟩
  | cons c rest ihc =>
    intro w pid hpok hpar hnd hpid hok
    have hSS : ((c :: rest).map (subtreeIds h w)).flatten =
        subtreeIds h w c ++ (rest.map (subtreeIds h w)).flatten := by
      simp
    rw [hSS] at hnd hpid hok ⊢
    obtain ⟨hndc, hndr, hdisj⟩ := List.nodup_append.mp hnd
    have hpidc : pid ∉ subtreeIds h w c := fun hm => hpid (List.mem_append_left _ hm)
    have hpidr : pid ∉ (rest.map (subtreeIds h w)).flatten :=
      fun hm => hpid (List.mem_append_right _ hm)
    -- first child
    have step1 := IH w c (hpok c (List.mem_cons_self c rest)) hndc
      (fun n hn => hok n (List.mem_append_left _ hn))
      (fun q hq' => by
        rw [hpar c (List.mem_cons_self c rest)] at hq'
        cases hq'
        exact hpidc)
    obtain ⟨fr1, ks1, vd1⟩ := step1
    have hch1 : ∀ n, ((update fuel w c).1.get n).children = (w.get n).children :=
      fun n => ((ks1 n).2.1).symm
    have hp1 : ∀ n, ((update fuel w c).1.get n).parent = (w.get n).parent :=
      fun n => ((ks1 n).1).symm
    have hfun : subtreeIds h (update fuel w c).1 = subtreeIds h w :=
      funext (fun n => subtreeIds_congr hch1 h n)
    -- transported invariants for the rest of the list
    have hokSr : ∀ n ∈ (rest.map (subtreeIds h w)).flatten,
        nodeOK (update fuel w c).1 n := by
      intro n hn
      have hnotc : n ∉ subtreeIds h w c := fun h2 => hdisj h2 hn
      refine nodeOK_congr (fr1 n hnotc) ?_ (hok n (List.mem_append_right _ hn))
      intro p hpn
      obtain ⟨l, hl, hnl⟩ := List.mem_flatten.mp hn
      obtain ⟨c', hc', rfl⟩ := List.mem_map.mp hl
      rcases subtree_parent_mem h w c' (hpok c' (List.mem_cons_of_mem _ hc')) n hnl
        with heq | ⟨m, hm, hpm⟩
      · rw [heq, hpar c' (List.mem_cons_of_mem _ hc')] at hpn
        injection hpn with hpn'
        subst hpn'
        rw [fr1 pid hpidc]
      · rw [hpm] at hpn
        injection hpn with hpn'
        subst hpn'
        have hmr : m ∈ (rest.map (subtreeIds h w)).flatten :=
          List.mem_flatten.mpr ⟨_, List.mem_map_of_mem _ hc', hm⟩
        rw [fr1 m (fun h2 => hdisj h2 hmr)]
    have step2 := ihc (update fuel w c).1 pid
      (fun c' hc' => by
        rw [parentsOKb_congr hch1 hp1 h c']
        exact hpok c' (List.mem_cons_of_mem _ hc'))
      (fun c' hc' => by
        rw [hp1 c']
        exact hpar c' (List.mem_cons_of_mem _ hc'))
      (by rw [hfun]; exact hndr)
      (by rw [hfun]; exact hpidr)
      (by rw [hfun]; exact hokSr)
    rw [hfun] at step2
    obtain ⟨fr2, ks2, vd2⟩ := step2
    have hgoal : (updateChildren fuel w (c :: rest)).1 =
        (updateChildren fuel (update fuel w c).1 rest).1 := by
      rw [updateChildren]
    rw [hgoal]
    refine ⟨?_, keepsStatic_trans ks1 ks2, ?_⟩
    · intro n hn
      have hna : n ∉ subtreeIds h w c := fun hm => hn (List.mem_append_left _ hm)
      have hnb : n ∉ (rest.map (subtreeIds h w)).flatten :=
        fun hm => hn (List.mem_append_right _ hm)
      rw [fr2 n hnb, fr1 n hna]
    · intro n hn
      rcases List.mem_append.mp hn with hnc | hnr
      · have hnotr : n ∉ (rest.map (subtreeIds h w)).flatten :=
          fun h2 => hdisj hnc h2
        refine validAt_congr (fr2 n hnotr) ?_ (vd1 n hnc)
        intro p hpn
        rw [hp1 n] at hpn
        rcases subtree_parent_mem h w c (hpok c (List.mem_cons_self c rest)) n hnc
          with heq | ⟨m, hm, hpm⟩
        · rw [heq, hpar c (List.mem_cons_self c rest)] at hpn
          injection hpn with hpn'
          subst hpn'
          rw [fr2 pid hpidr]
        · rw [hpm] at hpn
          injection hpn with hpn'
          subst hpn'
          rw [fr2 m (fun h2 => hdisj hm h2)]
      · exact vd2 n hnr

/-- Soundness of `update`: on a well-formed tree (depth-bounded by `h`,
duplicate-free, back-pointing parents, root's parent outside the tree) whose
cache flags are truthful, a traversal with enough fuel touches only the tree,
preserves every static field, and leaves every tree node fully revalidated:
flags set, `localModel = T·R·S`, and
`worldModel = parent.worldModel · localModel` (or `localModel` at the
root). -/
theorem update_sound (h : Nat) :
    ∀ (fuel : Nat) (w : World) (id : NodeId),
      parentsOKb h w id = true →
      (subtreeIds h w id).Nodup →
      (∀ n ∈ subtreeIds h w id, nodeOK w n) →
      (∀ q, (w.get id).parent = some q → q ∉ subtreeIds h w id) →
      h < fuel →
      UpdOut (subtreeIds h w id) w (update fuel w id).1 := by
  induction h with
  | zero =>
    intro fuel w id hpok hnd hok hq hf
    obtain ⟨f, rfl⟩ : ∃ f, fuel = f + 1 := ⟨fuel - 1, by omega⟩
    have hch : (w.get id).children = [] := by
      rw [parentsOKb] at hpok
      exact List.isEmpty_iff.mp hpok
    have hid : id ∉ (w.get id).children := by
      simp [hch]
    have hq' : ∀ q, (w.get id).parent = some q →
        q ≠ id ∧ q ∉ (w.get id).children := by
      intro q hq2
      refine ⟨?_, by simp [hch]⟩
      intro he
      exact (hq q hq2) (he ▸ subtreeIds_self_mem 0 w id)
    have hstep := update_step_head w id (hok id (subtreeIds_self_mem 0 w id)) hid hq'
    obtain ⟨fr1, _, ks1, _, hval1⟩ := hstep
    have hc1 : ((if (w.get id).is_model_valid = true then (w, ([] : List Inv))
        else revalidateModel w id).1.get id).children = [] := by
      rw [← (ks1 id).2.1]
      exact hch
    have hw2 : (update (f + 1) w id).1 =
        (if (w.get id).is_model_valid = true then (w, ([] : List Inv))
         else revalidateModel w id).1 := by
      rw [update_succ]
      show (updateChildren f _ _).1 = _
      rw [hc1, updateChildren]
    rw [hw2]
    refine ⟨?_, ks1, ?_⟩
    · intro n hn
      have hne : n ≠ id := by
        intro he
        exact hn (he ▸ subtreeIds_self_mem 0 w id)
      exact fr1 n hne (by simp [hch])
    · intro n hn
      have : n = id := by
        rw [subtreeIds] at hn
        exact List.mem_singleton.mp hn
      subst this
      exact hval1
  | succ h' ih =>
    intro fuel w id hpok hnd hok hq hf
    obtain ⟨f, rfl⟩ : ∃ f, fuel = f + 1 := ⟨fuel - 1, by omega⟩
    have hcs := (parentsOKb_succ_iff h' w id).mp hpok
    have hSid : subtreeIds (h' + 1) w id =
        id :: ((w.get id).children.map (subtreeIds h' w)).flatten := rfl
    rw [hSid] at hnd hok hq ⊢
    obtain ⟨hidSS, hndSS⟩ := List.nodup_cons.mp hnd
    have hsubC : ∀ c ∈ (w.get id).children, ∀ x ∈ subtreeIds h' w c,
        x ∈ ((w.get id).children.map (subtreeIds h' w)).flatten :=
      fun c hc x hx => List.mem_flatten.mpr ⟨_, List.mem_map_of_mem _ hc, hx⟩
    have hchSS : ∀ c ∈ (w.get id).children,
        c ∈ ((w.get id).children.map (subtreeIds h' w)).flatten :=
      fun c hc => hsubC c hc c (subtreeIds_self_mem h' w c)
    have hid : id ∉ (w.get id).children := fun hcm => hidSS (hchSS id hcm)
    have hq' : ∀ q, (w.get id).parent = some q →
        q ≠ id ∧ q ∉ (w.get id).children := by
      intro q hq2
      have hq3 := hq q hq2
      rw [List.mem_cons] at hq3
      push_neg at hq3
      exact ⟨hq3.1, fun hcm => hq3.2 (hchSS q hcm)⟩
    have hstep := update_step_head w id
      (hok id (List.mem_cons_self _ _)) hid hq'
    obtain ⟨fr1, hglob, ks1, hwm1, hval1⟩ := hstep
    have hch1 : ∀ n, ((if (w.get id).is_model_valid = true then (w, ([] : List Inv))
        else revalidateModel w id).1.get n).children = (w.get n).children :=
      fun n => ((ks1 n).2.1).symm
    have hp1 : ∀ n, ((if (w.get id).is_model_valid = true then (w, ([] : List Inv))
        else revalidateModel w id).1.get n).parent = (w.get n).parent :=
      fun n => ((ks1 n).1).symm
    have hfun : subtreeIds h' (if (w.get id).is_model_valid = true then (w, ([] : List Inv))
        else revalidateModel w id).1 = subtreeIds h' w :=
      funext (fun n => subtreeIds_congr hch1 h' n)
    have hneSS : ∀ n ∈ ((w.get id).children.map (subtreeIds h' w)).flatten, n ≠ id :=
      fun n hn he => hidSS (he ▸ hn)
    -- the conditional cache invariant survives the head step on the subtrees
    have hokSS1 : ∀ n ∈ ((w.get id).children.map (subtreeIds h' w)).flatten,
        nodeOK (if (w.get id).is_model_valid = true then (w, ([] : List Inv))
          else revalidateModel w id).1 n := by
      rcases hglob with hgl | hinv
      · rw [hgl]
        exact fun n hn => hok n (List.mem_cons_of_mem _ hn)
      · intro n hn
        obtain ⟨l, hl, hnl⟩ := List.mem_flatten.mp hn
        obtain ⟨c, hc, rfl⟩ := List.mem_map.mp hl
        by_cases hnc : n ∈ (w.get id).children
        · exact nodeOK_of_invalidated (hinv n hnc) (hok n (List.mem_cons_of_mem _ hn))
        · have hgetn := fr1 n (hneSS n hn) hnc
          refine nodeOK_congr hgetn ?_ (hok n (List.mem_cons_of_mem _ hn))
          intro p hpn
          rcases subtree_parent_mem h' w c (hcs c hc).2 n hnl with heq | ⟨m, hm, hpm⟩
          · exact absurd (heq ▸ hnc) (fun hh => hh hc)
          · rw [hpm] at hpn
            injection hpn with hpn'
            subst hpn'
            exact hwm1 m (hneSS m (hsubC c hc m hm))
    have hUC := updateChildren_sound h' f
      (fun w'' id'' a b c' d => ih f w'' id'' a b c' d (by omega))
      ((w.get id).children)
      (if (w.get id).is_model_valid = true then (w, ([] : List Inv))
        else revalidateModel w id).1
      id
      (fun c hc => by
        rw [parentsOKb_congr hch1 hp1 h' c]
        exact (hcs c hc).2)
      (fun c hc => by
        rw [hp1 c]
        exact (hcs c hc).1)
      (by rw [hfun]; exact hndSS)
      (by rw [hfun]; exact hidSS)
      (by rw [hfun]; exact hokSS1)
    rw [hfun] at hUC
    obtain ⟨fr2, ks2, vd2⟩ := hUC
    have hw2 : (update (f + 1) w id).1 =
        (updateChildren f (if (w.get id).is_model_valid = true then (w, ([] : List Inv))
          else revalidateModel w id).1 (w.get id).children).1 := by
      rw [update_succ]
      show (updateChildren f _ _).1 = _
      rw [hch1 id]
    rw [hw2]
    refine ⟨?_, keepsStatic_trans ks1 ks2, ?_⟩
    · intro n hn
      rw [List.mem_cons] at hn
      push_neg at hn
      rw [fr2 n hn.2, fr1 n hn.1 (fun hcm => hn.2 (hchSS n hcm))]
    · intro n hn
      rcases List.mem_cons.mp hn with heq | hnSS
      · subst heq
        refine validAt_congr (fr2 n hidSS) ?_ hval1
        intro p hpp
        rw [hp1 n] at hpp
        have hq3 := hq p hpp
        rw [List.mem_cons] at hq3
        push_neg at hq3
        rw [fr2 p hq3.2]
      · exact vd2 n hnSS

theorem nodeOK_of_validAt {w : World} {n : NodeId} (h : validAt w n) : nodeOK w n :=
  ⟨fun _ => h.2.2.1, fun _ => h.2.1, fun _ => h.2.2.2⟩

/-- A transform mutation (`mutateLocal`) changes nothing but the target's
transform state and validity flags, and preserves the conditional cache
invariant everywhere. -/
theorem mutateLocal_facts (w : World) (id : NodeId) (g : Node → Node)
    (hg : ∀ nd, (g nd).children = nd.children ∧ (g nd).parent = nd.parent ∧
      (g nd).world_model = nd.world_model) :
    (∀ n, ((mutateLocal w id g).get n).children = (w.get n).children) ∧
    (∀ n, ((mutateLocal w id g).get n).parent = (w.get n).parent) ∧
    (∀ n, ((mutateLocal w id g).get n).world_model = (w.get n).world_model) ∧
    (∀ n, nodeOK w n → nodeOK (mutateLocal w id g) n) := by
  have hget : ∀ n, (mutateLocal w id g).get n =
      if n = id then invalidateLocalModel (g (w.get n)) else w.get n := by
    intro n
    rw [mutateLocal, World.get_modify]
  refine ⟨?_, ?_, ?_, ?_⟩
  · intro n
    rw [hget n]
    by_cases hn : n = id <;> simp [hn, invalidateLocalModel, hg]
  · intro n
    rw [hget n]
    by_cases hn : n = id <;> simp [hn, invalidateLocalModel, hg]
  · intro n
    rw [hget n]
    by_cases hn : n = id <;> simp [hn, invalidateLocalModel, hg]
  · intro n hok
    by_cases hn : n = id
    · subst hn
      refine ⟨?_, ?_, ?_⟩ <;> rw [hget n] <;> simp [invalidateLocalModel]
    · refine nodeOK_congr (by rw [hget n]; simp [hn]) ?_ hok
      intro p _
      rw [hget p]
      by_cases hp : p = id <;> simp [hp, invalidateLocalModel, hg]

/-- Transform mutations preserve shape, cached world models, and the
conditional cache invariant. -/
theorem propMutation_facts (m : Op) (hm : m.isPropMutation = true) (w : World) :
    (∀ n, ((applyOp w m).get n).children = (w.get n).children) ∧
    (∀ n, ((applyOp w m).get n).parent = (w.get n).parent) ∧
    (∀ n, ((applyOp w m).get n).world_model = (w.get n).world_model) ∧
    (∀ n, nodeOK w n → nodeOK (applyOp w m) n) := by
  cases m with
  | setOrigin id v => exact mutateLocal_facts w id _ (fun nd => ⟨rfl, rfl, rfl⟩)
  | setOrientation id q => exact mutateLocal_facts w id _ (fun nd => ⟨rfl, rfl, rfl⟩)
  | setSize id v => exact mutateLocal_facts w id _ (fun nd => ⟨rfl, rfl, rfl⟩)
  | translate id v => exact mutateLocal_facts w id _ (fun nd => ⟨rfl, rfl, rfl⟩)
  | translateX id d => exact mutateLocal_facts w id _ (fun nd => ⟨rfl, rfl, rfl⟩)
  | translateY id d => exact mutateLocal_facts w id _ (fun nd => ⟨rfl, rfl, rfl⟩)
  | translateZ id d => exact mutateLocal_facts w id _ (fun nd => ⟨rfl, rfl, rfl⟩)
  | scaleMul id v => exact mutateLocal_facts w id _ (fun nd => ⟨rfl, rfl, rfl⟩)
  | rotate id c s axis => exact mutateLocal_facts w id _ (fun nd => ⟨rfl, rfl, rfl⟩)
  | rotateX id c s => exact mutateLocal_facts w id _ (fun nd => ⟨rfl, rfl, rfl⟩)
  | rotateY id c s => exact mutateLocal_facts w id _ (fun nd => ⟨rfl, rfl, rfl⟩)
  | rotateZ id c s => exact mutateLocal_facts w id _ (fun nd => ⟨rfl, rfl, rfl⟩)
  | setName id s => exact absurd hm (by simp [Op.isPropMutation])
  | addChild pid cid => exact absurd hm (by simp [Op.isPropMutation])
  | removeChild pid cid => exact absurd hm (by simp [Op.isPropMutation])
  | clearChildren id => exact absurd hm (by simp [Op.isPropMutation])
  | destroy fuel id => exact absurd hm (by simp [Op.isPropMutation])
  | update fuel id => exact absurd hm (by simp [Op.isPropMutation])
  | onEvent id ev cb => exact absurd hm (by simp [Op.isPropMutation])

/-- Sequences of transform mutations preserve shape, cached world models, and
the conditional cache invariant. -/
theorem propMutations_facts (muts : List Op) (hm : ∀ m ∈ muts, m.isPropMutation = true)
    (w : World) :
    (∀ n, ((applyOps w muts).get n).children = (w.get n).children) ∧
    (∀ n, ((applyOps w muts).get n).parent = (w.get n).parent) ∧
    (∀ n, ((applyOps w muts).get n).world_model = (w.get n).world_model) ∧
    (∀ n, nodeOK w n → nodeOK (applyOps w muts) n) := by
  induction muts generalizing w with
  | nil => exact ⟨fun n => rfl, fun n => rfl, fun n => rfl, fun n h => h⟩
  | cons m rest ih =>
    have h1 := propMutation_facts m (hm m (List.mem_cons_self _ _)) w
    have h2 := ih (fun m' hm' => hm m' (List.mem_cons_of_mem _ hm')) (applyOp w m)
    rw [applyOps]
    exact ⟨fun n => (h2.1 n).trans (h1.1 n),
      fun n => (h2.2.1 n).trans (h1.2.1 n),
      fun n => (h2.2.2.1 n).trans (h1.2.2.1 n),
      fun n hok => h2.2.2.2 n (h1.2.2.2 n hok)⟩

/-!
## Claim C1: after a full `update` pass, `worldModel` composes with the
parent's `worldModel`
-/

/-- C1: After a full `update` pass starting at the root of a well-formed tree
whose cache flags are truthful, every node with a parent satisfies
`worldModel = parent.worldModel · localModel`, and every node without a
parent satisfies `worldModel = localModel`. -/
theorem update_world_model_consistency (h fuel : Nat) (w : World) (root : NodeId)
    (hpok : parentsOKb h w root = true)
    (hnd : (subtreeIds h w root).Nodup)
    (hok : ∀ n ∈ subtreeIds h w root, nodeOK w n)
    (hroot : (w.get root).parent = none)
    (hf : h < fuel) :
    ∀ n ∈ subtreeIds h w root,
      (∀ p, ((update fuel w root).1.get n).parent = some p →
        ((update fuel w root).1.get n).world_model =
          (((update fuel w root).1.get p).world_model).mulM
            (((update fuel w root).1.get n).local_model)) ∧
      (((update fuel w root).1.get n).parent = none →
        ((update fuel w root).1.get n).world_model =
          ((update fuel w root).1.get n).local_model) := by
  have hq : ∀ q, (w.get root).parent = some q → q ∉ subtreeIds h w root := by
    intro q hq2
    rw [hroot] at hq2
    cases hq2
  obtain ⟨_, _, vd⟩ := update_sound h fuel w root hpok hnd hok hq hf
  intro n hn
  have hweq := (vd n hn).2.2.2
  rw [worldEqAt, expectedWorld] at hweq
  constructor
  · intro p hp
    rw [hp] at hweq
    exact hweq
  · intro hp
    rw [hp] at hweq
    exact hweq

/-- Witness for C1: root 0 with child 1 translated by 5 along x; after the
pass the child's world model is the product of the root's world model and
its own local model. -/
theorem update_world_model_consistency_witness :
    ((update 2 (applyOps initialWorld [.addChild 0 1, .translateX 1 5]) 0).1.get 1).parent =
        some 0 ∧
      ((update 2 (applyOps initialWorld [.addChild 0 1, .translateX 1 5]) 0).1.get 1).world_model =
        (((update 2 (applyOps initialWorld [.addChild 0 1, .translateX 1 5]) 0).1.get 0).world_model).mulM
          (((update 2 (applyOps initialWorld [.addChild 0 1, .translateX 1 5]) 0).1.get 1).local_model) :=
  ⟨by decide,
   (update_world_model_consistency 1 2
      (applyOps initialWorld [.addChild 0 1, .translateX 1 5]) 0
      (by decide) (by decide) (by decide) (by decide) (by decide) 1
      (by decide)).1 0 (by decide)⟩

/-!
## Claim C2: stale cached world models are recomputed after an ancestor
mutation
-/

/-- C2: If a node's transform is mutated while the tree's nodes (in
particular its descendants) hold cached valid world models, then after the
next full `update` pass from the root every node of the tree is revalidated
(`modelValid = true` again) and its world model equals its parent's new
world model composed with its own local model (the root's equals its local
model).  The revalidation reaches every level because `_revalidateModel`
marks each direct child's `modelValid = false` and the top-down traversal
repeats this at each level. -/
theorem mutation_recomputes_stale_descendants (h fuel : Nat) (w : World)
    (root : NodeId) (m : Op)
    (hpok : parentsOKb h w root = true)
    (hnd : (subtreeIds h w root).Nodup)
    (hok : ∀ n ∈ subtreeIds h w root, nodeOK w n)
    (hroot : (w.get root).parent = none)
    (hf : h < fuel)
    (hmut : m.isPropMutation = true)
    (htar : Op.target m ∈ subtreeIds h w root)
    (hcached : ∀ n ∈ subtreeIds h w root, (w.get n).is_model_valid = true) :
    ∀ n ∈ subtreeIds h w root,
      ((update fuel (applyOp w m) root).1.get n).is_model_valid = true ∧
      (∀ p, ((update fuel (applyOp w m) root).1.get n).parent = some p →
        ((update fuel (applyOp w m) root).1.get n).world_model =
          (((update fuel (applyOp w m) root).1.get p).world_model).mulM
            (((update fuel (applyOp w m) root).1.get n).local_model)) ∧
      (((update fuel (applyOp w m) root).1.get n).parent = none →
        ((update fuel (applyOp w m) root).1.get n).world_model =
          ((update fuel (applyOp w m) root).1.get n).local_model) := by
  obtain ⟨hch, hpp, hwm, hokp⟩ := propMutation_facts m hmut w
  have hfun : subtreeIds h (applyOp w m) = subtreeIds h w :=
    funext (fun n => subtreeIds_congr hch h n)
  have hq : ∀ q, ((applyOp w m).get root).parent = some q →
      q ∉ subtreeIds h (applyOp w m) root := by
    intro q hq2
    rw [hpp root, hroot] at hq2
    cases hq2
  obtain ⟨_, _, vd⟩ := update_sound h fuel (applyOp w m) root
    (by rw [parentsOKb_congr hch hpp h root]; exact hpok)
    (by rw [hfun]; exact hnd)
    (by rw [hfun]; exact fun n hn => hokp n (hok n hn))
    hq hf
  rw [hfun] at vd
  intro n hn
  have hv := vd n hn
  have hweq := hv.2.2.2
  rw [worldEqAt, expectedWorld] at hweq
  refine ⟨hv.1, ?_, ?_⟩
  · intro p hp
    rw [hp] at hweq
    exact hweq
  · intro hp
    rw [hp] at hweq
    exact hweq

/-- Witness for C2: a cached two-node tree (root 0, child 1 at local offset
5) whose root is then translated by `(1,0,0)`; after the next pass the child
is valid again and composes with the root's new world model. -/
theorem mutation_recomputes_stale_descendants_witness :
    (((update 2 (applyOp (update 2 (applyOps initialWorld
        [.addChild 0 1, .translateX 1 5]) 0).1 (.translate 0 ⟨1, 0, 0⟩)) 0).1.get 1).is_model_valid
      = true) ∧
    ((update 2 (applyOp (update 2 (applyOps initialWorld
        [.addChild 0 1, .translateX 1 5]) 0).1 (.translate 0 ⟨1, 0, 0⟩)) 0).1.get 1).parent =
      some 0 ∧
    ((update 2 (applyOp (update 2 (applyOps initialWorld
        [.addChild 0 1, .translateX 1 5]) 0).1 (.translate 0 ⟨1, 0, 0⟩)) 0).1.get 1).world_model =
      (((update 2 (applyOp (update 2 (applyOps initialWorld
        [.addChild 0 1, .translateX 1 5]) 0).1 (.translate 0 ⟨1, 0, 0⟩)) 0).1.get 0).world_model).mulM
        (((update 2 (applyOp (update 2 (applyOps initialWorld
          [.addChild 0 1, .translateX 1 5]) 0).1 (.translate 0 ⟨1, 0, 0⟩)) 0).1.get 1).local_model) :=
  ⟨(mutation_recomputes_stale_descendants 1 2
      (update 2 (applyOps initialWorld [.addChild 0 1, .translateX 1 5]) 0).1 0
      (.translate 0 ⟨1, 0, 0⟩)
      (by decide) (by decide) (by decide) (by decide) (by decide) (by decide)
      (by decide) (by decide) 1 (by decide)).1,
   by decide,
   ((mutation_recomputes_stale_descendants 1 2
      (update 2 (applyOps initialWorld [.addChild 0 1, .translateX 1 5]) 0).1 0
      (.translate 0 ⟨1, 0, 0⟩)
      (by decide) (by decide) (by decide) (by decide) (by decide) (by decide)
      (by decide) (by decide) 1 (by decide)).2.1) 0 (by decide)⟩

/-!
## Claim C3: `localModel` is recomputed from the latest transform values
-/

/-- C3: For every sequence of transform property mutations applied between
two consecutive `update` calls on the root of a well-formed tree, the
`localModel` of every tree node after the second `update` equals
`Translate(origin) · Rotate(orientation) · Scale(scale)` computed from only
the latest origin, orientation and scale values (the values left by the
mutation sequence). -/
theorem local_model_from_latest_values (h fuel : Nat) (w : World) (root : NodeId)
    (muts : List Op)
    (hpok : parentsOKb h w root = true)
    (hnd : (subtreeIds h w root).Nodup)
    (hok : ∀ n ∈ subtreeIds h w root, nodeOK w n)
    (hroot : (w.get root).parent = none)
    (hf : h < fuel)
    (hmuts : ∀ m ∈ muts, m.isPropMutation = true) :
    ∀ n ∈ subtreeIds h w root,
      ((update fuel (applyOps (update fuel w root).1 muts) root).1.get n).local_model =
        specLocalModel
          ((update fuel (applyOps (update fuel w root).1 muts) root).1.get n).origin
          ((update fuel (applyOps (update fuel w root).1 muts) root).1.get n).orientation
          ((update fuel (applyOps (update fuel w root).1 muts) root).1.get n).scale ∧
      ((update fuel (applyOps (update fuel w root).1 muts) root).1.get n).origin =
        ((applyOps (update fuel w root).1 muts).get n).origin ∧
      ((update fuel (applyOps (update fuel w root).1 muts) root).1.get n).orientation =
        ((applyOps (update fuel w root).1 muts).get n).orientation ∧
      ((update fuel (applyOps (update fuel w root).1 muts) root).1.get n).scale =
        ((applyOps (update fuel w root).1 muts).get n).scale := by
  have hq : ∀ q, (w.get root).parent = some q → q ∉ subtreeIds h w root := by
    intro q hq2
    rw [hroot] at hq2
    cases hq2
  -- first pass
  obtain ⟨fr1, ks1, vd1⟩ := update_sound h fuel w root hpok hnd hok hq hf
  have hch1 : ∀ n, (((update fuel w root).1).get n).children = (w.get n).children :=
    fun n => ((ks1 n).2.1).symm
  have hp1 : ∀ n, (((update fuel w root).1).get n).parent = (w.get n).parent :=
    fun n => ((ks1 n).1).symm
  have hfun1 : subtreeIds h (update fuel w root).1 = subtreeIds h w :=
    funext (fun n => subtreeIds_congr hch1 h n)
  -- the mutation burst
  obtain ⟨hch2, hp2, hwm2, hokp2⟩ := propMutations_facts muts hmuts (update fuel w root).1
  have hfun2 : subtreeIds h (applyOps (update fuel w root).1 muts) =
      subtreeIds h (update fuel w root).1 :=
    funext (fun n => subtreeIds_congr hch2 h n)
  -- second pass
  have hnodeOK2 : ∀ n ∈ subtreeIds h w root,
      nodeOK (applyOps (update fuel w root).1 muts) n :=
    fun n hn => hokp2 n (nodeOK_of_validAt (vd1 n hn))
  obtain ⟨fr3, ks3, vd3⟩ := update_sound h fuel (applyOps (update fuel w root).1 muts) root
    (by rw [parentsOKb_congr hch2 hp2 h root, parentsOKb_congr hch1 hp1 h root]; exact hpok)
    (by rw [hfun2, hfun1]; exact hnd)
    (by rw [hfun2, hfun1]; exact hnodeOK2)
    (by
      intro q hq2
      rw [hp2 root, hp1 root, hroot] at hq2
      cases hq2)
    hf
  rw [hfun2, hfun1] at vd3
  intro n hn
  have hv := vd3 n hn
  refine ⟨?_, ((ks3 n).2.2.1).symm, ((ks3 n).2.2.2.1).symm, ((ks3 n).2.2.2.2.1).symm⟩
  have hloc := hv.2.2.1
  rw [specLocalOf] at hloc
  exact hloc

/-- Witness for C3: a two-node tree is updated, the child's origin is then
overwritten twice (only the last value counts), and after the second pass
the child's local model is composed from the latest values. -/
theorem local_model_from_latest_values_witness :
    ((update 2 (applyOps (update 2 (applyOps initialWorld
        [.addChild 0 1, .translateX 1 5]) 0).1
        [.translateX 1 7, .setOrigin 1 ⟨2, 3, 4⟩]) 0).1.get 1).local_model =
      specLocalModel
        ((update 2 (applyOps (update 2 (applyOps initialWorld
          [.addChild 0 1, .translateX 1 5]) 0).1
          [.translateX 1 7, .setOrigin 1 ⟨2, 3, 4⟩]) 0).1.get 1).origin
        ((update 2 (applyOps (update 2 (applyOps initialWorld
          [.addChild 0 1, .translateX 1 5]) 0).1
          [.translateX 1 7, .setOrigin 1 ⟨2, 3, 4⟩]) 0).1.get 1).orientation
        ((update 2 (applyOps (update 2 (applyOps initialWorld
          [.addChild 0 1, .translateX 1 5]) 0).1
          [.translateX 1 7, .setOrigin 1 ⟨2, 3, 4⟩]) 0).1.get 1).scale :=
  (local_model_from_latest_values 1 2
    (applyOps initialWorld [.addChild 0 1, .translateX 1 5]) 0
    [.translateX 1 7, .setOrigin 1 ⟨2, 3, 4⟩]
    (by decide) (by decide) (by decide) (by decide) (by decide) (by decide)
    1 (by decide)).1

end Goblin
